import Mathlib

/-!
Shallow embedding of the Sokoban level-representation layer:
the tile codec (`convertToLevel` / `convertToRawLevel`), the
localStorage-backed level and game savers, and the level catalog
selection operations, together with proofs about them.

Strings are modelled as `List Char`; the browser `localStorage` is
modelled as an association list with unique keys; a thrown JS
exception is modelled as `none` / a missing entry.
-/

namespace Sokoban

/-- Dimensions record, `{ x, y }` as in `constants.js`. -/
structure Dimensions where
  x : Nat
  y : Nat
deriving DecidableEq, Repr

/-- `BOARD_DIMENSIONS = { x: 30, y: 20 }` from `constants.js`. -/
def BOARD_DIMENSIONS : Dimensions := ⟨30, 20⟩

/-- A grid position `{ x, y }`. -/
structure Pos where
  x : Nat
  y : Nat
deriving DecidableEq, Repr

/-- Modelled from the spec: `Box{position, onTarget}` value shape
(`objects/box.js` is not under `src/`). -/
structure Box where
  position : Pos
  onTarget : Bool
deriving DecidableEq, Repr

/-- Modelled from the spec: `Boxes{collection of Box}` value shape
(`objects/boxes.js` is not under `src/`). -/
structure Boxes where
  boxes : List Box
deriving DecidableEq, Repr

/-- Modelled from the spec: `addBox` appends a box to the collection
(`objects/boxes.js` is not under `src/`). -/
def addBox (bs : Boxes) (b : Box) : Boxes := ⟨bs.boxes ++ [b]⟩

/-- Modelled from the spec: `Worker{position}` value shape
(`objects/worker.js` is not under `src/`). -/
structure Worker where
  position : Pos
deriving DecidableEq, Repr

/-- A `Board` object as consumed by `convertToRawLevel`: `board.board`
is the 2D grid of tile symbols. -/
structure Board where
  board : List (List Char)
deriving DecidableEq, Repr

/-- The structured `Level` returned by `convertToLevel`:
`{ board, worker, boxes }`. The `board` field is the plain 2D array
built by the decoder. -/
structure Level where
  board : List (List Char)
  worker : Worker
  boxes : Boxes
deriving DecidableEq, Repr

/-- The JS assignment `board[row][column] = c` on a 2D array (both
indices assumed meaningful at the call site). -/
def setCell (board : List (List Char)) (row col : Nat) (c : Char) :
    List (List Char) :=
  board.set row ((board.getD row []).set col c)

/-- The loop body of `convertToLevel` (`levelProvider.js`, lines
145-169): a cursor `(row, column)` that wraps after `width` columns,
a `switch` on the character, and the JS write `board[row][column]`,
which throws (modelled as `none`) when `row` is outside the board. -/
def convertToLevelGo :
    List Char → Nat → Nat → List (List Char) → Worker → Boxes →
    Option Level
  | [], _, _, board, worker, boxes => some ⟨board, worker, boxes⟩
  | c :: rest, row, col, board, worker, boxes =>
    let row' := if col ≥ BOARD_DIMENSIONS.x then row + 1 else row
    let col' := if col ≥ BOARD_DIMENSIONS.x then 0 else col
    if row' < board.length then
      if c = 'p' then
        convertToLevelGo rest row' (col' + 1)
          (setCell board row' col' 'e') ⟨⟨col', row'⟩⟩ boxes
      else if c = 'b' then
        convertToLevelGo rest row' (col' + 1)
          (setCell board row' col' 'e') worker
          (addBox boxes ⟨⟨col', row'⟩, false⟩)
      else if c = 'h' then
        convertToLevelGo rest row' (col' + 1)
          (setCell board row' col' 't') worker
          (addBox boxes ⟨⟨col', row'⟩, true⟩)
      else
        convertToLevelGo rest row' (col' + 1)
          (setCell board row' col' c) worker boxes
    else none

/-- `convertToLevel` (`levelProvider.js`, lines 137-176): decodes a raw
level string into `{ board, worker, boxes }`. The board starts as a
`BOARD_DIMENSIONS.y × BOARD_DIMENSIONS.x` grid of `'e'`, the worker
defaults to `(0,0)`, and the character list is consumed by
`convertToLevelGo`. -/
def convertToLevel (rawLevel : List Char) : Option Level :=
  convertToLevelGo rawLevel 0 0
    (List.replicate BOARD_DIMENSIONS.y
      (List.replicate BOARD_DIMENSIONS.x 'e'))
    ⟨⟨0, 0⟩⟩ ⟨[]⟩

/-- `String.prototype.replaceAt(index, replacement)` from
`levelSaver.js` for a single replacement character:
`substr(0, index) + replacement + substr(index + 1)`. Out-of-range
indices append (both `substr` calls return the obvious pieces). -/
def replaceAt (s : List Char) (i : Nat) (c : Char) : List Char :=
  s.take i ++ [c] ++ s.drop (i + 1)

/-- Inner `forEach` of the terrain phase of `convertToRawLevel`:
writes row `rowIndex`, advancing the column index `ci`. -/
def writeRowGo (raw : List Char) (rowIndex ci : Nat) :
    List Char → List Char
  | [] => raw
  | ch :: rest =>
    writeRowGo (replaceAt raw (rowIndex * BOARD_DIMENSIONS.x + ci) ch)
      rowIndex (ci + 1) rest

/-- Outer `forEach` of the terrain phase of `convertToRawLevel`:
writes each row at row index `ri`, `ri + 1`, …. -/
def writeBoardGo (raw : List Char) (ri : Nat) :
    List (List Char) → List Char
  | [] => raw
  | row :: rest => writeBoardGo (writeRowGo raw ri 0 row) (ri + 1) rest

/-- Box phase of `convertToRawLevel`: for each box in order, write `'h'`
at its cell if the cell currently holds `'t'`, else write `'b'`. -/
def writeBoxesGo (raw : List Char) : List Box → List Char
  | [] => raw
  | b :: rest =>
    let pos := b.position.y * BOARD_DIMENSIONS.x + b.position.x
    let raw' := if raw[pos]? = some 't' then replaceAt raw pos 'h'
      else replaceAt raw pos 'b'
    writeBoxesGo raw' rest

/-- `convertToRawLevel` (`levelSaver.js`, lines 36-55): encodes a board,
boxes and an optional worker into the flat raw-level string. Starts from
`'e'.repeat(width*height)`, writes the terrain grid, then the boxes,
then — when `worker` is defined — a `'p'` at the worker's cell. -/
def convertToRawLevel (board : Board) (boxes : Boxes)
    (worker : Option Worker) : List Char :=
  let raw := List.replicate (BOARD_DIMENSIONS.x * BOARD_DIMENSIONS.y) 'e'
  let raw := writeBoardGo raw 0 board.board
  let raw := writeBoxesGo raw boxes.boxes
  match worker with
  | some w =>
    replaceAt raw (w.position.y * BOARD_DIMENSIONS.x + w.position.x) 'p'
  | none => raw

/-! ### localStorage model and the level / game savers -/

/-- The browser `localStorage`, modelled as an association list of
key/value pairs (keys are unique in the real store; theorems carry a
`Nodup` hypothesis on the key list where it matters). -/
abbrev Store := List (List Char × List Char)

/-- `localStorage.setItem`: overwrite in place if the key exists,
otherwise append the new pair. -/
def setItem (key value : List Char) : Store → Store
  | [] => [(key, value)]
  | (k, v) :: rest =>
    if k = key then (key, value) :: rest
    else (k, v) :: setItem key value rest

/-- `Object.keys(localStorage)`: the keys in store order. -/
def storeKeys (s : Store) : List (List Char) := s.map Prod.fst

/-- `localStorage.getItem`: the value of the first matching key, or
`none` (JS `null`) when absent. -/
def getItem (key : List Char) (s : Store) : Option (List Char) :=
  (s.find? (fun kv => kv.1 = key)).map Prod.snd

/-- `String.prototype.startsWith` on char lists. -/
def startsWithL : List Char → List Char → Bool
  | [], _ => true
  | _ :: _, [] => false
  | p :: ps, c :: cs => p = c && startsWithL ps cs

/-- `String.prototype.replace(pat, rep)` for plain-string patterns:
replaces the first occurrence of `pat` (if any) by `rep`. -/
def replaceFirst (pat rep : List Char) : List Char → List Char
  | [] => if startsWithL pat [] then rep else []
  | c :: rest =>
    if startsWithL pat (c :: rest) then
      rep ++ (c :: rest).drop pat.length
    else c :: replaceFirst pat rep rest

/-- `CUSTOM_LEVEL_PREFIX = 'level/'` from `constants.js`. -/
def customLevelKey : List Char := ['l', 'e', 'v', 'e', 'l', '/']

/-- `SAVED_GAME_PREFIX = 'save/'` from `constants.js`. -/
def savedGameKey : List Char := ['s', 'a', 'v', 'e', '/']

/-- `saveLevel` (`levelSaver.js`, lines 17-19): store the encoded level
under the key `CUSTOM_LEVEL_PREFIX + levelName`. -/
def saveLevel (levelName : List Char) (board : Board) (boxes : Boxes)
    (worker : Option Worker) (s : Store) : Store :=
  setItem (customLevelKey ++ levelName)
    (convertToRawLevel board boxes worker) s

/-- `readLevels` (`levelSaver.js`, lines 72-85): keys filtered by the
custom-level key text, each contributing
`{ name: key.replace(pre, ''), data: localStorage.getItem(key) }`. -/
def readLevels (s : Store) : List (List Char × Option (List Char)) :=
  ((storeKeys s).filter (fun k => startsWithL customLevelKey k)).map
    (fun k => (replaceFirst customLevelKey [] k, getItem k s))

/-- JSON text of a position, `{"x":…,"y":…}`. Modelled from the spec:
`JSON.stringify` is a host builtin. The braces are
`Char.ofNat 123` / `Char.ofNat 125`. -/
def jsonOfPos (p : Pos) : List Char :=
  [Char.ofNat 123, '"', 'x', '"', ':'] ++ (Nat.repr p.x).data ++
    [',', '"', 'y', '"', ':'] ++ (Nat.repr p.y).data ++ [Char.ofNat 125]

/-- JSON text of a worker, `{"position":…}`. Modelled from the spec. -/
def jsonOfWorker (w : Worker) : List Char :=
  [Char.ofNat 123, '"', 'p', 'o', 's', 'i', 't', 'i', 'o', 'n', '"',
    ':'] ++ jsonOfPos w.position ++ [Char.ofNat 125]

/-- JSON text of a Bool. Modelled from the spec. -/
def jsonOfBool (b : Bool) : List Char :=
  if b then ['t', 'r', 'u', 'e'] else ['f', 'a', 'l', 's', 'e']

/-- JSON text of a box, `{"position":…,"onTarget":…}`. Modelled from
the spec. -/
def jsonOfBox (b : Box) : List Char :=
  [Char.ofNat 123, '"', 'p', 'o', 's', 'i', 't', 'i', 'o', 'n', '"',
    ':'] ++ jsonOfPos b.position ++
    [',', '"', 'o', 'n', 'T', 'a', 'r', 'g', 'e', 't', '"', ':'] ++
    jsonOfBool b.onTarget ++ [Char.ofNat 125]

/-- JSON text of a boxes collection, `{"boxes":[…]}`. Modelled from the
spec. -/
def jsonOfBoxes (bs : Boxes) : List Char :=
  [Char.ofNat 123, '"', 'b', 'o', 'x', 'e', 's', '"', ':', '['] ++
    List.intercalate [','] (bs.boxes.map jsonOfBox) ++
    [']', Char.ofNat 125]

/-- The `JSON.stringify` call inside `saveGame` (`gameSaver.js`, lines
21-28) applied to the sequential-mode save record. Modelled from the
spec (serialization shape; `JSON.stringify` is a host builtin). -/
def stringifyGame (currentLevel : Nat) (worker : Worker) (boxes : Boxes)
    (movesMade movesUndone score : Nat) : List Char :=
  [Char.ofNat 123] ++
    ['"', 'c', 'u', 'r', 'r', 'e', 'n', 't', 'L', 'e', 'v', 'e', 'l',
      '"', ':'] ++ (Nat.repr currentLevel).data ++
    [',', '"', 'w', 'o', 'r', 'k', 'e', 'r', '"', ':'] ++
    jsonOfWorker worker ++
    [',', '"', 'b', 'o', 'x', 'e', 's', '"', ':'] ++
    jsonOfBoxes boxes ++
    [',', '"', 'm', 'o', 'v', 'e', 's', 'M', 'a', 'd', 'e', '"',
      ':'] ++ (Nat.repr movesMade).data ++
    [',', '"', 'm', 'o', 'v', 'e', 's', 'U', 'n', 'd', 'o', 'n', 'e',
      '"', ':'] ++ (Nat.repr movesUndone).data ++
    [',', '"', 's', 'c', 'o', 'r', 'e', '"', ':'] ++
    (Nat.repr score).data ++ [Char.ofNat 125]

/-- `saveGame` (`gameSaver.js`, lines 20-31): store the serialized save
record under the key `SAVED_GAME_PREFIX + gameName`. -/
def saveGame (gameName : List Char) (currentLevel : Nat)
    (worker : Worker) (boxes : Boxes)
    (movesMade movesUndone score : Nat) (s : Store) : Store :=
  setItem (savedGameKey ++ gameName)
    (stringifyGame currentLevel worker boxes movesMade movesUndone score)
    s

/-- `readGames` (`gameSaver.js`, lines 60-73): keys filtered by the
saved-game key text, names recovered with `key.replace(pre, '')`. -/
def readGames (s : Store) : List (List Char × Option (List Char)) :=
  ((storeKeys s).filter (fun k => startsWithL savedGameKey k)).map
    (fun k => (replaceFirst savedGameKey [] k, getItem k s))

/-! ### Level catalog selection -/

/-- A catalog entry `{ name, data }` as held in `levelsMode` /
`customLevels`. -/
structure NamedData where
  name : List Char
  data : List Char
deriving DecidableEq, Repr

/-- `getLevelByLevelNumber` (`levelProvider.js`, lines 200-207):
`levelsMode.length > levelNumber ? levelsMode[levelNumber]
: levelsMode[levelsMode.length - 1]`, then
`{ name: level.name, level: convertToLevel(level.data) }`. A JS
negative index (and the `length - 1` access on an empty pool) yields
`undefined`, and the subsequent `level['name']` access throws —
modelled as outer `none`. The decode outcome is the inner `Option`. -/
def getLevelByLevelNumber (levelsMode : List NamedData)
    (levelNumber : Int) : Option (List Char × Option Level) :=
  let level :=
    if (levelsMode.length : Int) > levelNumber then
      if 0 ≤ levelNumber then levelsMode.get? levelNumber.toNat
      else none
    else levelsMode.get? (levelsMode.length - 1)
  level.map (fun l => (l.name, convertToLevel l.data))

/-- `getCustomLevel` (`levelProvider.js`, lines 215-222):
`customLevels.find(level => level['name'] == levelName)`; a missing
name makes `level['name']` throw — modelled as outer `none`. -/
def getCustomLevel (customLevels : List NamedData)
    (levelName : List Char) : Option (List Char × Option Level) :=
  (customLevels.find? (fun l => l.name = levelName)).map
    (fun l => (l.name, convertToLevel l.data))

/-- `getCustomLevelsNames` (`levelProvider.js`, line 230). -/
def getCustomLevelsNames (customLevels : List NamedData) :
    List (List Char) :=
  customLevels.map (fun l => l.name)

/-! ### Pointwise characterization of the decoder -/

/-- The terrain character the decoder writes for an input character:
`'p'` and `'b'` leave `'e'`, `'h'` leaves `'t'`, anything else is
written verbatim. -/
def decodeCellChar (c : Char) : Char :=
  if c = 'p' then 'e'
  else if c = 'b' then 'e'
  else if c = 'h' then 't'
  else c

/-- Apply the decoder's board writes for the characters of `s`,
starting at flat index `k`: character `j` of `s` lands at cell
`(row = (k+j) / width, col = (k+j) % width)`. -/
def applyChars (board : List (List Char)) (k : Nat) :
    List Char → List (List Char)
  | [] => board
  | c :: rest =>
    applyChars
      (setCell board (k / BOARD_DIMENSIONS.x) (k % BOARD_DIMENSIONS.x)
        (decodeCellChar c))
      (k + 1) rest

/-- The worker after the decoder consumes `s` from flat index `k`,
starting from `w`: the cell of the last `'p'`, if any. -/
def lastP (w : Worker) (k : Nat) : List Char → Worker
  | [] => w
  | c :: rest =>
    lastP
      (if c = 'p' then
        ⟨⟨k % BOARD_DIMENSIONS.x, k / BOARD_DIMENSIONS.x⟩⟩
      else w)
      (k + 1) rest

/-- The boxes the decoder appends while consuming `s` from flat index
`k`: one box per `'b'` / `'h'`, in index order. -/
def boxesOf (k : Nat) : List Char → List Box
  | [] => []
  | c :: rest =>
    (if c = 'b' then
      [⟨⟨k % BOARD_DIMENSIONS.x, k / BOARD_DIMENSIONS.x⟩, false⟩]
    else if c = 'h' then
      [⟨⟨k % BOARD_DIMENSIONS.x, k / BOARD_DIMENSIONS.x⟩, true⟩]
    else []) ++ boxesOf (k + 1) rest

/-- The character of board cell `(row = r, col = c)` (a blank for an
out-of-range index; all uses are in range). -/
def cellAt (board : List (List Char)) (r c : Nat) : Char :=
  (board.getD r []).getD c ' '

/-- The flat raw-level index of a position, `y * width + x`. -/
def flatIdx (p : Pos) : Nat := p.y * BOARD_DIMENSIONS.x + p.x

/-- Follows the spec's words (§4.1 encode contract): the character the
encoder is specified to produce at flat index `idx` — `'p'` at the
worker's cell; at a box's cell `'h'` when the terrain is `'t'` and
`'b'` otherwise; the terrain symbol elsewhere. -/
def specEncodedChar (board : Board) (boxes : Boxes)
    (worker : Option Worker) (idx : Nat) : Char :=
  let terrain := cellAt board.board (idx / BOARD_DIMENSIONS.x)
    (idx % BOARD_DIMENSIONS.x)
  let boxChar :=
    match boxes.boxes.find? (fun b => flatIdx b.position = idx) with
    | some _ => if terrain = 't' then 'h' else 'b'
    | none => terrain
  match worker with
  | some w => if flatIdx w.position = idx then 'p' else boxChar
  | none => boxChar

/-- An all-`'e'` terrain grid of the board dimensions. -/
def allEmptyGrid : List (List Char) :=
  List.replicate BOARD_DIMENSIONS.y (List.replicate BOARD_DIMENSIONS.x 'e')

/-- The all-`'e'` grid with a `'t'` target at cell `(0,0)` — a concrete
well-formed terrain grid used to exercise the codec. -/
def gridTargetAt00 : List (List Char) :=
  allEmptyGrid.set 0 ((List.replicate BOARD_DIMENSIONS.x 'e').set 0 't')

/-! ## Basic lemmas -/

@[simp] lemma BOARD_DIMENSIONS_x : BOARD_DIMENSIONS.x = 30 := rfl

@[simp] lemma BOARD_DIMENSIONS_y : BOARD_DIMENSIONS.y = 20 := rfl

@[simp] lemma length_setCell (b : List (List Char)) (r c : Nat)
    (ch : Char) : (setCell b r c ch).length = b.length := by
  simp [setCell]

lemma getElem?_setCell_ne (b : List (List Char)) (r c : Nat) (ch : Char)
    (r' : Nat) (h : r' ≠ r) : (setCell b r c ch)[r']? = b[r']? := by
  simp [setCell, List.getElem?_set_ne (fun hrr => h hrr.symm)]

lemma getElem?_setCell_self (b : List (List Char)) (r c : Nat)
    (ch : Char) (h : r < b.length) :
    (setCell b r c ch)[r]? = some ((b.getD r []).set c ch) := by
  simp [setCell, List.getElem?_set_self h]

lemma cellAt_setCell_self (b : List (List Char)) (r c : Nat) (ch : Char)
    (hr : r < b.length) (hc : c < (b.getD r []).length) :
    cellAt (setCell b r c ch) r c = ch := by
  simp only [cellAt, List.getD_eq_getElem?_getD,
    getElem?_setCell_self b r c ch hr, Option.getD_some]
  rw [List.getElem?_set_self (by simpa using hc)]
  simp

lemma cellAt_setCell_ne (b : List (List Char)) (r c : Nat) (ch : Char)
    (r' c' : Nat) (h : r' ≠ r ∨ c' ≠ c) :
    cellAt (setCell b r c ch) r' c' = cellAt b r' c' := by
  rcases h with h | h
  · simp [cellAt, getElem?_setCell_ne b r c ch r' h]
  · by_cases hr : r' = r
    · subst hr
      by_cases hlen : r' < b.length
      · simp only [cellAt, List.getD_eq_getElem?_getD,
          getElem?_setCell_self b r' c ch hlen]
        simp [List.getElem?_set_ne (fun hcc => h hcc.symm)]
      · have : b.length ≤ r' := by omega
        simp [cellAt, setCell, List.set_eq_of_length_le this]
    · simp [cellAt, getElem?_setCell_ne b r c ch r' hr]

lemma getD_length_setCell (b : List (List Char)) (r c : Nat) (ch : Char)
    (i : Nat) : ((setCell b r c ch).getD i []).length = (b.getD i []).length := by
  by_cases hi : i = r
  · subst hi
    by_cases hr : i < b.length
    · simp [List.getD_eq_getElem?_getD, getElem?_setCell_self b i c ch hr]
    · have : b.length ≤ i := by omega
      simp [setCell, List.set_eq_of_length_le this]
  · simp [List.getD_eq_getElem?_getD, getElem?_setCell_ne b r c ch i hi]

@[simp] lemma length_allEmptyGrid : allEmptyGrid.length = 20 := by
  simp [allEmptyGrid]

lemma getD_length_allEmptyGrid (r : Nat) (hr : r < 20) :
    (allEmptyGrid.getD r []).length = 30 := by
  simp only [allEmptyGrid, BOARD_DIMENSIONS_x, BOARD_DIMENSIONS_y,
    List.getD_eq_getElem?_getD, List.getElem?_replicate_of_lt hr,
    Option.getD_some, List.length_replicate]

lemma cellAt_allEmptyGrid (r c : Nat) (hr : r < 20) (hc : c < 30) :
    cellAt allEmptyGrid r c = 'e' := by
  simp only [cellAt, allEmptyGrid, BOARD_DIMENSIONS_x, BOARD_DIMENSIONS_y,
    List.getD_eq_getElem?_getD, List.getElem?_replicate_of_lt hr,
    Option.getD_some, List.getElem?_replicate_of_lt hc]

/-! ## Decoder characterization -/

@[simp] lemma length_applyChars (s : List Char) :
    ∀ (k : Nat) (b : List (List Char)),
      (applyChars b k s).length = b.length := by
  induction s with
  | nil => intro k b; simp [applyChars]
  | cons c rest ih => intro k b; simp [applyChars, ih]

lemma getD_length_applyChars (s : List Char) :
    ∀ (k : Nat) (b : List (List Char)) (i : Nat),
      ((applyChars b k s).getD i []).length = (b.getD i []).length := by
  induction s with
  | nil => intro k b i; simp [applyChars]
  | cons c rest ih =>
    intro k b i
    simp only [applyChars]
    rw [ih]
    exact getD_length_setCell b _ _ _ i

lemma cellAt_applyChars_untouched (s : List Char) :
    ∀ (k : Nat) (b : List (List Char)) (r c : Nat), c < 30 →
      (r * 30 + c < k ∨ k + s.length ≤ r * 30 + c) →
      cellAt (applyChars b k s) r c = cellAt b r c := by
  induction s with
  | nil => intro k b r c _ _; simp [applyChars]
  | cons ch rest ih =>
    intro k b r c hc h
    simp only [applyChars, BOARD_DIMENSIONS_x]
    rw [ih (k + 1) _ r c hc (by simp only [List.length_cons] at h; omega)]
    apply cellAt_setCell_ne
    by_contra hcon
    push_neg at hcon
    obtain ⟨h1, h2⟩ := hcon
    subst h1; subst h2
    simp only [List.length_cons] at h
    omega

lemma cellAt_applyChars_written (s : List Char) :
    ∀ (k : Nat) (b : List (List Char)) (j : Nat) (ch : Char),
      s[j]? = some ch →
      (k + j) / 30 < b.length →
      (k + j) % 30 < (b.getD ((k + j) / 30) []).length →
      cellAt (applyChars b k s) ((k + j) / 30) ((k + j) % 30) =
        decodeCellChar ch := by
  induction s with
  | nil => intro k b j ch h; simp at h
  | cons c rest ih =>
    intro k b j ch h hr hc
    match j with
    | 0 =>
      simp only [List.getElem?_cons_zero, Option.some_inj] at h
      subst h
      simp only [Nat.add_zero] at hr hc ⊢
      simp only [applyChars, BOARD_DIMENSIONS_x]
      rw [cellAt_applyChars_untouched rest (k + 1) _ (k / 30) (k % 30)
        (by omega) (by left; omega)]
      exact cellAt_setCell_self b (k / 30) (k % 30) _ hr hc
    | j' + 1 =>
      simp only [List.getElem?_cons_succ] at h
      simp only [applyChars, BOARD_DIMENSIONS_x]
      have hidx : k + (j' + 1) = (k + 1) + j' := by omega
      rw [hidx] at hr hc ⊢
      exact ih (k + 1) _ j' ch h
        (by rwa [length_setCell])
        (by rwa [getD_length_setCell])

lemma lastP_of_not_mem (s : List Char) :
    ∀ (w : Worker) (k : Nat), 'p' ∉ s → lastP w k s = w := by
  induction s with
  | nil => intro w k _; simp [lastP]
  | cons c rest ih =>
    intro w k h
    simp only [List.mem_cons, not_or] at h
    have hc : ¬ (c = 'p') := fun hc => h.1 hc.symm
    simp only [lastP, if_neg hc]
    exact ih w (k + 1) h.2

lemma lastP_last (s : List Char) :
    ∀ (w : Worker) (k j : Nat), s[j]? = some 'p' →
      (∀ i, j < i → s[i]? ≠ some 'p') →
      lastP w k s = ⟨⟨(k + j) % 30, (k + j) / 30⟩⟩ := by
  induction s with
  | nil => intro w k j h _; simp at h
  | cons c rest ih =>
    intro w k j h hlater
    match j with
    | 0 =>
      simp only [List.getElem?_cons_zero, Option.some_inj] at h
      subst h
      simp only [lastP, if_pos rfl, BOARD_DIMENSIONS_x, Nat.add_zero]
      have hnp : 'p' ∉ rest := by
        intro hmem
        obtain ⟨i, hi, hip⟩ := List.getElem_of_mem hmem
        exact hlater (i + 1) (by omega)
          (by simpa [List.getElem?_cons_succ] using
            (List.getElem?_eq_getElem hi).trans (by rw [hip]))
      exact lastP_of_not_mem rest _ (k + 1) hnp
    | j' + 1 =>
      simp only [List.getElem?_cons_succ] at h
      simp only [lastP, BOARD_DIMENSIONS_x]
      have := ih (if c = 'p' then ⟨⟨k % 30, k / 30⟩⟩ else w) (k + 1) j' h
        (fun i hi => by
          have := hlater (i + 1) (by omega)
          simpa [List.getElem?_cons_succ] using this)
      rw [this]
      have : k + 1 + j' = k + (j' + 1) := by omega
      rw [this]

lemma mem_boxesOf (s : List Char) :
    ∀ (k : Nat) (b : Box), b ∈ boxesOf k s ↔
      ∃ j, (s[j]? = some 'b' ∧
              b = ⟨⟨(k + j) % 30, (k + j) / 30⟩, false⟩) ∨
           (s[j]? = some 'h' ∧
              b = ⟨⟨(k + j) % 30, (k + j) / 30⟩, true⟩) := by
  induction s with
  | nil => intro k b; simp [boxesOf]
  | cons c rest ih =>
    intro k b
    simp only [boxesOf, BOARD_DIMENSIONS_x, List.mem_append]
    constructor
    · rintro (hfront | htail)
      · by_cases hb : c = 'b'
        · subst hb
          simp only [if_pos rfl, List.mem_singleton] at hfront
          exact ⟨0, Or.inl ⟨by simp, by simpa using hfront⟩⟩
        · by_cases hh : c = 'h'
          · subst hh
            simp only [if_neg (show ¬ ('h' = 'b') by decide), if_pos rfl,
              List.mem_singleton] at hfront
            exact ⟨0, Or.inr ⟨by simp, by simpa using hfront⟩⟩
          · rw [if_neg hb, if_neg hh] at hfront
            simp at hfront
      · obtain ⟨j, hj⟩ := (ih (k + 1) b).1 htail
        refine ⟨j + 1, ?_⟩
        have harith : k + 1 + j = k + (j + 1) := by omega
        rw [harith] at hj
        simpa [List.getElem?_cons_succ] using hj
    · rintro ⟨j, hj⟩
      match j with
      | 0 =>
        left
        rcases hj with ⟨hc, hb⟩ | ⟨hc, hb⟩ <;>
          simp only [List.getElem?_cons_zero, Option.some_inj] at hc <;>
          subst hc <;> simp [hb]
      | j' + 1 =>
        right
        refine (ih (k + 1) b).2 ⟨j', ?_⟩
        have harith : k + 1 + j' = k + (j' + 1) := by omega
        rw [harith]
        simpa [List.getElem?_cons_succ] using hj

lemma flatIdx_of_mem_boxesOf (s : List Char) (k : Nat) (b : Box)
    (h : b ∈ boxesOf k s) :
    k ≤ flatIdx b.position ∧ flatIdx b.position < k + s.length ∧
      b.position.x < 30 := by
  obtain ⟨j, hj⟩ := (mem_boxesOf s k b).1 h
  rcases hj with ⟨hc, hb⟩ | ⟨hc, hb⟩ <;>
    (subst hb
     have hlt : j < s.length := by
       by_contra hge
       rw [List.getElem?_eq_none (by omega)] at hc
       exact Option.noConfusion hc
     refine ⟨?_, ?_, ?_⟩ <;> simp [flatIdx] <;> omega)

lemma nodup_boxesOf (s : List Char) : ∀ (k : Nat), (boxesOf k s).Nodup := by
  induction s with
  | nil => intro k; simp [boxesOf]
  | cons c rest ih =>
    intro k
    simp only [boxesOf, BOARD_DIMENSIONS_x]
    rw [List.nodup_append]
    refine ⟨?_, ih (k + 1), ?_⟩
    · by_cases hbc : c = 'b'
      · simp [if_pos hbc]
      · by_cases hhc : c = 'h'
        · simp [if_neg hbc, if_pos hhc]
        · simp [if_neg hbc, if_neg hhc]
    · intro b hb1 hb2
      have h2 := flatIdx_of_mem_boxesOf rest (k + 1) b hb2
      have h1 : flatIdx b.position = k := by
        by_cases hbc : c = 'b'
        · simp only [if_pos hbc, List.mem_singleton] at hb1
          subst hb1
          simp [flatIdx]
          omega
        · by_cases hhc : c = 'h'
          · simp only [if_neg hbc, if_pos hhc, List.mem_singleton] at hb1
            subst hb1
            simp [flatIdx]
            omega
          · simp [if_neg hbc, if_neg hhc] at hb1
      omega

/-- Central decoder invariant: with the cursor at flat index `k`
(`row * width + col = k`, `col ≤ width`), and enough room left on the
board, `convertToLevelGo` succeeds and its result is the pointwise
description by `applyChars`, `lastP` and `boxesOf`. -/
lemma convertToLevelGo_eq (s : List Char) :
    ∀ (k row col : Nat) (board : List (List Char)) (w : Worker)
      (bs : Boxes),
      board.length = 20 →
      row * 30 + col = k →
      col ≤ 30 →
      k + s.length ≤ 600 →
      convertToLevelGo s row col board w bs =
        some ⟨applyChars board k s, lastP w k s, ⟨bs.boxes ++ boxesOf k s⟩⟩ := by
  induction s with
  | nil =>
    intro k row col board w bs _ _ _ _
    simp [convertToLevelGo, applyChars, lastP, boxesOf]
  | cons c rest ih =>
    intro k row col board w bs hb hk hcol hroom
    simp only [List.length_cons] at hroom
    have hrow30 : (if col ≥ 30 then row + 1 else row) = k / 30 := by
      split <;> omega
    have hcol30 : (if col ≥ 30 then 0 else col) = k % 30 := by
      split <;> omega
    have hguard : k / 30 < board.length := by omega
    have hinv1 : (k / 30) * 30 + (k % 30 + 1) = k + 1 := by omega
    have hinv2 : k % 30 + 1 ≤ 30 := by omega
    have hroom' : (k + 1) + rest.length ≤ 600 := by omega
    simp only [convertToLevelGo, BOARD_DIMENSIONS_x]
    rw [hrow30, hcol30, if_pos hguard]
    by_cases hp : c = 'p'
    · subst hp
      rw [if_pos rfl]
      rw [ih (k + 1) (k / 30) (k % 30 + 1) _ _ _ (by simpa using hb)
        hinv1 hinv2 hroom']
      simp [applyChars, lastP, boxesOf, decodeCellChar]
    · rw [if_neg hp]
      by_cases hbx : c = 'b'
      · subst hbx
        rw [if_pos rfl]
        rw [ih (k + 1) (k / 30) (k % 30 + 1) _ _ _ (by simpa using hb)
          hinv1 hinv2 hroom']
        simp [applyChars, lastP, boxesOf, decodeCellChar, addBox]
      · rw [if_neg hbx]
        by_cases hh : c = 'h'
        · subst hh
          rw [if_pos rfl]
          rw [ih (k + 1) (k / 30) (k % 30 + 1) _ _ _ (by simpa using hb)
            hinv1 hinv2 hroom']
          simp [applyChars, lastP, boxesOf, decodeCellChar, addBox]
        · rw [if_neg hh]
          rw [ih (k + 1) (k / 30) (k % 30 + 1) _ _ _ (by simpa using hb)
            hinv1 hinv2 hroom']
          simp [applyChars, lastP, boxesOf, decodeCellChar, hp, hbx, hh]

/-- The decoder fails as soon as the cursor would leave the board:
with the cursor at flat index `k ≤ 600` and more characters left than
the board can absorb, `convertToLevelGo` returns `none`. -/
lemma convertToLevelGo_none (s : List Char) :
    ∀ (k row col : Nat) (board : List (List Char)) (w : Worker)
      (bs : Boxes),
      board.length = 20 →
      row * 30 + col = k →
      col ≤ 30 →
      k ≤ 600 →
      600 < k + s.length →
      convertToLevelGo s row col board w bs = none := by
  induction s with
  | nil => intro k row col board w bs _ _ _ hk hlong; simp at hlong; omega
  | cons c rest ih =>
    intro k row col board w bs hb hk hcol hk600 hlong
    by_cases hend : k = 600
    · have hrow20 : (if col ≥ 30 then row + 1 else row) = 20 := by
        split <;> omega
      simp only [convertToLevelGo, BOARD_DIMENSIONS_x]
      rw [hrow20]
      rw [if_neg (by omega)]
    · have hklt : k < 600 := by omega
      have hrow30 : (if col ≥ 30 then row + 1 else row) = k / 30 := by
        split <;> omega
      have hcol30 : (if col ≥ 30 then 0 else col) = k % 30 := by
        split <;> omega
      have hguard : k / 30 < board.length := by omega
      have hinv1 : (k / 30) * 30 + (k % 30 + 1) = k + 1 := by omega
      have hinv2 : k % 30 + 1 ≤ 30 := by omega
      have hlong' : 600 < (k + 1) + rest.length := by
        simp only [List.length_cons] at hlong; omega
      simp only [convertToLevelGo, BOARD_DIMENSIONS_x]
      rw [hrow30, hcol30, if_pos hguard]
      split
      · exact ih (k + 1) (k / 30) (k % 30 + 1) _ _ _ (by simpa using hb)
          hinv1 hinv2 (by omega) hlong'
      · split
        · exact ih (k + 1) (k / 30) (k % 30 + 1) _ _ _ (by simpa using hb)
            hinv1 hinv2 (by omega) hlong'
        · split
          · exact ih (k + 1) (k / 30) (k % 30 + 1) _ _ _ (by simpa using hb)
              hinv1 hinv2 (by omega) hlong'
          · exact ih (k + 1) (k / 30) (k % 30 + 1) _ _ _ (by simpa using hb)
              hinv1 hinv2 (by omega) hlong'

/-- Decoding a string of length at most `width*height` succeeds, with
the result described pointwise. -/
lemma convertToLevel_eq (s : List Char) (h : s.length ≤ 600) :
    convertToLevel s =
      some ⟨applyChars allEmptyGrid 0 s, lastP ⟨⟨0, 0⟩⟩ 0 s,
        ⟨boxesOf 0 s⟩⟩ := by
  have := convertToLevelGo_eq s 0 0 0 allEmptyGrid ⟨⟨0, 0⟩⟩ ⟨[]⟩
    (by simp) (by omega) (by omega) (by omega)
  simpa [convertToLevel, allEmptyGrid] using this

/-- Decoding a string longer than `width*height` throws (the JS write
`board[row][column]` hits an undefined row). -/
lemma convertToLevel_none (s : List Char) (h : 600 < s.length) :
    convertToLevel s = none := by
  have := convertToLevelGo_none s 0 0 0 allEmptyGrid ⟨⟨0, 0⟩⟩ ⟨[]⟩
    (by simp) (by omega) (by omega) (by omega) (by omega)
  simpa [convertToLevel, allEmptyGrid] using this

/-- Pointwise description of the decoded board: a covered cell holds
the decode of its character, an uncovered cell stays `'e'`. -/
lemma decoded_board_cellAt (s : List Char) (_h : s.length ≤ 600)
    (r c : Nat) (hr : r < 20) (hc : c < 30) :
    cellAt (applyChars allEmptyGrid 0 s) r c =
      if r * 30 + c < s.length then decodeCellChar (s.getD (r * 30 + c) ' ')
      else 'e' := by
  by_cases hidx : r * 30 + c < s.length
  · rw [if_pos hidx]
    have hdiv : (0 + (r * 30 + c)) / 30 = r := by omega
    have hmod : (0 + (r * 30 + c)) % 30 = c := by omega
    have hsome : s[r * 30 + c]? = some (s.getD (r * 30 + c) ' ') := by
      rw [List.getElem?_eq_getElem hidx]
      simp [List.getD_eq_getElem?_getD, List.getElem?_eq_getElem hidx]
    have := cellAt_applyChars_written s 0 allEmptyGrid (r * 30 + c)
      (s.getD (r * 30 + c) ' ') hsome
      (by rw [hdiv]; simpa using hr)
      (by rw [hdiv, hmod, getD_length_allEmptyGrid r hr]; omega)
    rwa [hdiv, hmod] at this
  · rw [if_neg hidx]
    rw [cellAt_applyChars_untouched s 0 allEmptyGrid r c hc
      (by right; omega)]
    exact cellAt_allEmptyGrid r c hr hc

/-- Every row of the decoded board has the board width. -/
lemma rows_length_applyChars (s : List Char) (k : Nat) :
    ∀ row ∈ applyChars allEmptyGrid k s, row.length = 30 := by
  intro row hrow
  obtain ⟨i, hi⟩ := List.mem_iff_getElem?.1 hrow
  have hilt : i < (applyChars allEmptyGrid k s).length := by
    by_contra hge
    rw [List.getElem?_eq_none (by omega)] at hi
    exact Option.noConfusion hi
  have hrow_eq : (applyChars allEmptyGrid k s).getD i [] = row := by
    simp [List.getD_eq_getElem?_getD, hi]
  rw [← hrow_eq, getD_length_applyChars]
  exact getD_length_allEmptyGrid i (by simpa using hilt)

/-! ## Claims about the decoder -/

/-- C10: for every string of length at most `width*height` (including
the empty string), `convertToLevel` succeeds and returns a board of
exactly `height` rows by `width` columns in which every cell not
covered by the string is `'e'`. -/
theorem claim_C10 (s : List Char) (h : s.length ≤ 600) :
    ∃ lv, convertToLevel s = some lv ∧
      lv.board.length = 20 ∧
      (∀ row ∈ lv.board, row.length = 30) ∧
      (∀ r c, r < 20 → c < 30 → s.length ≤ r * 30 + c →
        cellAt lv.board r c = 'e') := by
  refine ⟨_, convertToLevel_eq s h, ?_, ?_, ?_⟩
  · simp
  · exact rows_length_applyChars s 0
  · intro r c hr hc hcov
    rw [decoded_board_cellAt s h r c hr hc, if_neg (by omega)]

theorem claim_C10_witness :
    (['w'] : List Char).length ≤ 600 ∧
      (∃ lv, convertToLevel ['w'] = some lv ∧
        lv.board.length = 20 ∧
        (∀ row ∈ lv.board, row.length = 30) ∧
        (∀ r c, r < 20 → c < 30 → (['w'] : List Char).length ≤ r * 30 + c →
          cellAt lv.board r c = 'e')) :=
  ⟨by simp, claim_C10 ['w'] (by simp)⟩

/-- C2 counterexample: a 601-character string has length at least
`width*height = 600`, yet `convertToLevel` fails on it (the claim says
it must succeed and ignore the extra character). -/
theorem claim_C2_counterexample :
    600 ≤ (List.replicate 601 'e').length ∧
      convertToLevel (List.replicate 601 'e') = none :=
  ⟨by simp only [List.length_replicate]; omega,
    convertToLevel_none _ (by simp only [List.length_replicate]; omega)⟩

/-- C2 (amended): `convertToLevel` succeeds on strings of length
exactly `width*height`, and fails (the JS row write throws) on every
strictly longer string — extra characters are not ignored. -/
theorem claim_C2 (s : List Char) :
    (s.length = 600 → (convertToLevel s).isSome) ∧
      (600 < s.length → convertToLevel s = none) := by
  constructor
  · intro hlen
    rw [convertToLevel_eq s (by omega)]
    simp
  · exact convertToLevel_none s

theorem claim_C2_witness :
    (convertToLevel (List.replicate 600 'e')).isSome ∧
      convertToLevel (List.replicate 601 'w') = none :=
  ⟨(claim_C2 _).1 (by simp only [List.length_replicate]),
    (claim_C2 _).2 (by simp only [List.length_replicate]; omega)⟩

/-- C9: decoding a string of length `width*height` containing no `'p'`
succeeds and the worker is at `(0,0)` — the documented fallback. -/
theorem claim_C9 (s : List Char) (hlen : s.length = 600)
    (hnp : 'p' ∉ s) :
    ∃ lv, convertToLevel s = some lv ∧ lv.worker = ⟨⟨0, 0⟩⟩ := by
  refine ⟨_, convertToLevel_eq s (by omega), ?_⟩
  exact lastP_of_not_mem s ⟨⟨0, 0⟩⟩ 0 hnp

theorem claim_C9_witness :
    (List.replicate 600 'e').length = 600 ∧
      'p' ∉ List.replicate 600 'e' ∧
      (∃ lv, convertToLevel (List.replicate 600 'e') = some lv ∧
        lv.worker = ⟨⟨0, 0⟩⟩) :=
  ⟨by simp only [List.length_replicate],
    by simp only [List.mem_replicate]; decide,
    claim_C9 _ (by simp only [List.length_replicate])
      (by simp only [List.mem_replicate]; decide)⟩

/-- A `getD` lookup inside the string bounds is a `getElem?` hit. -/
lemma getD_getElem?_of_lt (s : List Char) (i : Nat) (hi : i < s.length) :
    s[i]? = some (s.getD i ' ') := by
  rw [List.getElem?_eq_getElem hi]
  simp [List.getD_eq_getElem?_getD, List.getElem?_eq_getElem hi]

/-- C4: decode symbol semantics — character `i` of a
`width*height`-length string is interpreted at cell
`(column = i mod width, row = i div width)`: `'b'` yields an
off-target box there and terrain `'e'`; `'h'` an on-target box and
terrain `'t'`; `'p'` puts the worker there (the last such `'p'` wins)
with terrain `'e'`; any other character is written verbatim. -/
theorem claim_C4 (s : List Char) (hlen : s.length = 600) :
    ∃ lv, convertToLevel s = some lv ∧
      (∀ i, i < 600 → s.getD i ' ' = 'b' →
        (⟨⟨i % 30, i / 30⟩, false⟩ : Box) ∈ lv.boxes.boxes ∧
        cellAt lv.board (i / 30) (i % 30) = 'e') ∧
      (∀ i, i < 600 → s.getD i ' ' = 'h' →
        (⟨⟨i % 30, i / 30⟩, true⟩ : Box) ∈ lv.boxes.boxes ∧
        cellAt lv.board (i / 30) (i % 30) = 't') ∧
      (∀ i, i < 600 → s.getD i ' ' = 'p' →
        cellAt lv.board (i / 30) (i % 30) = 'e' ∧
        ((∀ j, i < j → j < 600 → s.getD j ' ' ≠ 'p') →
          lv.worker = ⟨⟨i % 30, i / 30⟩⟩)) ∧
      (∀ i, i < 600 → s.getD i ' ' ≠ 'b' → s.getD i ' ' ≠ 'h' →
        s.getD i ' ' ≠ 'p' →
        cellAt lv.board (i / 30) (i % 30) = s.getD i ' ') := by
  have hcell : ∀ i, i < 600 →
      cellAt (applyChars allEmptyGrid 0 s) (i / 30) (i % 30) =
        decodeCellChar (s.getD i ' ') := by
    intro i hi
    have h1 := decoded_board_cellAt s (by omega) (i / 30) (i % 30)
      (by omega) (by omega)
    have he : i / 30 * 30 + i % 30 = i := by omega
    rw [he] at h1
    rw [h1, if_pos (by omega)]
  have hnolater : ∀ i, i < 600 →
      (∀ j, i < j → j < 600 → s.getD j ' ' ≠ 'p') →
      (∀ j, i < j → s[j]? ≠ some 'p') := by
    intro i hi hlater j hj hcon
    by_cases hj6 : j < 600
    · have hs := getD_getElem?_of_lt s j (by omega)
      rw [hs] at hcon
      exact hlater j hj hj6 (Option.some_inj.1 hcon)
    · rw [List.getElem?_eq_none (by omega)] at hcon
      exact Option.noConfusion hcon
  refine ⟨_, convertToLevel_eq s (by omega), ?_, ?_, ?_, ?_⟩
  · intro i hi hb
    constructor
    · refine (mem_boxesOf s 0 _).2 ⟨i, Or.inl ⟨?_, by simp⟩⟩
      rw [getD_getElem?_of_lt s i (by omega), hb]
    · rw [hcell i hi, hb]; decide
  · intro i hi hh
    constructor
    · refine (mem_boxesOf s 0 _).2 ⟨i, Or.inr ⟨?_, by simp⟩⟩
      rw [getD_getElem?_of_lt s i (by omega), hh]
    · rw [hcell i hi, hh]; decide
  · intro i hi hp
    constructor
    · rw [hcell i hi, hp]; decide
    · intro hlater
      have := lastP_last s ⟨⟨0, 0⟩⟩ 0 i
        (by rw [getD_getElem?_of_lt s i (by omega), hp])
        (hnolater i hi hlater)
      simpa using this
  · intro i hi hb hh hp
    rw [hcell i hi]
    simp only [decodeCellChar]
    rw [if_neg hp, if_neg hb, if_neg hh]

theorem claim_C4_witness :
    ∃ lv, convertToLevel ('p' :: 'b' :: 'h' :: List.replicate 597 'w') =
        some lv ∧
      (⟨⟨1 % 30, 1 / 30⟩, false⟩ : Box) ∈ lv.boxes.boxes ∧
      (⟨⟨2 % 30, 2 / 30⟩, true⟩ : Box) ∈ lv.boxes.boxes := by
  obtain ⟨lv, h1, h2, h3, _, _⟩ :=
    claim_C4 ('p' :: 'b' :: 'h' :: List.replicate 597 'w')
      (by simp only [List.length_cons, List.length_replicate])
  exact ⟨lv, h1, (h2 1 (by omega) (by decide)).1, (h3 2 (by omega) (by decide)).1⟩

/-! ## Encoder characterization -/

lemma length_replaceAt (s : List Char) (i : Nat) (c : Char)
    (h : i < s.length) : (replaceAt s i c).length = s.length := by
  simp [replaceAt]
  omega

lemma getElem?_replaceAt_self (s : List Char) (i : Nat) (c : Char)
    (h : i < s.length) : (replaceAt s i c)[i]? = some c := by
  have htake : (s.take i).length = i := by simp; omega
  rw [replaceAt, List.getElem?_append_left (by simp; omega),
    List.getElem?_append_right (by omega), htake]
  simp

lemma getElem?_replaceAt_ne (s : List Char) (i : Nat) (c : Char)
    (j : Nat) (h : i < s.length) (hne : j ≠ i) :
    (replaceAt s i c)[j]? = s[j]? := by
  have htake : (s.take i).length = i := by simp; omega
  by_cases hj : j < i
  · rw [replaceAt, List.getElem?_append_left (by simp; omega),
      List.getElem?_append_left (by omega)]
    exact List.getElem?_take_of_lt hj
  · have hj' : i + 1 ≤ j := by omega
    rw [replaceAt, List.getElem?_append_right (by simp; omega)]
    rw [List.getElem?_drop]
    congr 1
    simp
    omega

lemma length_writeRowGo (row : List Char) :
    ∀ (raw : List Char) (ri ci : Nat),
      ri * 30 + ci + row.length ≤ raw.length →
      (writeRowGo raw ri ci row).length = raw.length := by
  induction row with
  | nil => intro raw ri ci _; simp [writeRowGo]
  | cons ch rest ih =>
    intro raw ri ci h
    simp only [List.length_cons] at h
    simp only [writeRowGo, BOARD_DIMENSIONS_x]
    rw [ih _ ri (ci + 1) (by rw [length_replaceAt _ _ _ (by omega)]; omega)]
    exact length_replaceAt _ _ _ (by omega)

lemma getElem?_writeRowGo_untouched (row : List Char) :
    ∀ (raw : List Char) (ri ci j : Nat),
      ri * 30 + ci + row.length ≤ raw.length →
      (j < ri * 30 + ci ∨ ri * 30 + ci + row.length ≤ j) →
      (writeRowGo raw ri ci row)[j]? = raw[j]? := by
  induction row with
  | nil => intro raw ri ci j _ _; simp [writeRowGo]
  | cons ch rest ih =>
    intro raw ri ci j hin hout
    simp only [List.length_cons] at hin hout
    simp only [writeRowGo, BOARD_DIMENSIONS_x]
    rw [ih (replaceAt raw (ri * 30 + ci) ch) ri (ci + 1) j
      (by rw [length_replaceAt raw (ri * 30 + ci) ch (by omega)]; omega)
      (by omega)]
    exact getElem?_replaceAt_ne raw (ri * 30 + ci) ch j (by omega) (by omega)

lemma getElem?_writeRowGo_written (row : List Char) :
    ∀ (raw : List Char) (ri ci t : Nat),
      ri * 30 + ci + row.length ≤ raw.length →
      t < row.length →
      (writeRowGo raw ri ci row)[ri * 30 + ci + t]? = row[t]? := by
  induction row with
  | nil => intro raw ri ci t _ ht; simp at ht
  | cons ch rest ih =>
    intro raw ri ci t hin ht
    simp only [List.length_cons] at hin ht
    simp only [writeRowGo, BOARD_DIMENSIONS_x]
    match t with
    | 0 =>
      rw [getElem?_writeRowGo_untouched rest
        (replaceAt raw (ri * 30 + ci) ch) ri (ci + 1) (ri * 30 + ci + 0)
        (by rw [length_replaceAt raw (ri * 30 + ci) ch (by omega)]; omega)
        (by omega)]
      rw [Nat.add_zero]
      rw [getElem?_replaceAt_self raw (ri * 30 + ci) ch (by omega)]
      simp
    | t' + 1 =>
      have harith : ri * 30 + ci + (t' + 1) = ri * 30 + (ci + 1) + t' := by
        omega
      rw [harith]
      rw [ih (replaceAt raw (ri * 30 + ci) ch) ri (ci + 1) t'
        (by rw [length_replaceAt raw (ri * 30 + ci) ch (by omega)]; omega)
        (by omega)]
      simp

lemma length_writeBoardGo (rows : List (List Char)) :
    ∀ (raw : List Char) (ri : Nat),
      (∀ row ∈ rows, row.length = 30) →
      (ri + rows.length) * 30 ≤ raw.length →
      (writeBoardGo raw ri rows).length = raw.length := by
  induction rows with
  | nil => intro raw ri _ _; simp [writeBoardGo]
  | cons row rest ih =>
    intro raw ri hrows hin
    simp only [List.length_cons] at hin
    have hrow : row.length = 30 := hrows row (List.mem_cons_self row rest)
    simp only [writeBoardGo]
    rw [ih (writeRowGo raw ri 0 row) (ri + 1)
      (fun r hr => hrows r (List.mem_cons_of_mem row hr))
      (by rw [length_writeRowGo row raw ri 0 (by omega)]; omega)]
    exact length_writeRowGo row raw ri 0 (by omega)

lemma getElem?_writeBoardGo_untouched (rows : List (List Char)) :
    ∀ (raw : List Char) (ri j : Nat),
      (∀ row ∈ rows, row.length = 30) →
      (ri + rows.length) * 30 ≤ raw.length →
      (j < ri * 30 ∨ (ri + rows.length) * 30 ≤ j) →
      (writeBoardGo raw ri rows)[j]? = raw[j]? := by
  induction rows with
  | nil => intro raw ri j _ _ _; simp [writeBoardGo]
  | cons row rest ih =>
    intro raw ri j hrows hin hout
    simp only [List.length_cons] at hin hout
    have hrow : row.length = 30 := hrows row (List.mem_cons_self row rest)
    simp only [writeBoardGo]
    rw [ih (writeRowGo raw ri 0 row) (ri + 1) j
      (fun r hr => hrows r (List.mem_cons_of_mem row hr))
      (by rw [length_writeRowGo row raw ri 0 (by omega)]; omega)
      (by omega)]
    exact getElem?_writeRowGo_untouched row raw ri 0 j (by omega) (by omega)

lemma getElem?_writeBoardGo_written (rows : List (List Char)) :
    ∀ (raw : List Char) (ri r c : Nat),
      (∀ row ∈ rows, row.length = 30) →
      (ri + rows.length) * 30 ≤ raw.length →
      r < rows.length → c < 30 →
      (writeBoardGo raw ri rows)[(ri + r) * 30 + c]? =
        (rows.getD r [])[c]? := by
  induction rows with
  | nil => intro raw ri r c _ _ hr _; simp at hr
  | cons row rest ih =>
    intro raw ri r c hrows hin hr hc
    simp only [List.length_cons] at hin hr
    have hrow : row.length = 30 := hrows row (List.mem_cons_self row rest)
    simp only [writeBoardGo]
    match r with
    | 0 =>
      rw [getElem?_writeBoardGo_untouched rest (writeRowGo raw ri 0 row)
        (ri + 1) ((ri + 0) * 30 + c)
        (fun rr hrr => hrows rr (List.mem_cons_of_mem row hrr))
        (by rw [length_writeRowGo row raw ri 0 (by omega)]; omega)
        (by left; omega)]
      have harith : (ri + 0) * 30 + c = ri * 30 + 0 + c := by omega
      rw [harith]
      rw [getElem?_writeRowGo_written row raw ri 0 c (by omega) (by omega)]
      simp
    | r' + 1 =>
      have harith : (ri + (r' + 1)) * 30 + c = ((ri + 1) + r') * 30 + c := by
        omega
      rw [harith]
      rw [ih (writeRowGo raw ri 0 row) (ri + 1) r' c
        (fun rr hrr => hrows rr (List.mem_cons_of_mem row hrr))
        (by rw [length_writeRowGo row raw ri 0 (by omega)]; omega)
        (by omega) hc]
      simp

lemma length_writeBoxesGo (bs : List Box) :
    ∀ (raw : List Char),
      (∀ b ∈ bs, flatIdx b.position < raw.length) →
      (writeBoxesGo raw bs).length = raw.length := by
  induction bs with
  | nil => intro raw _; simp [writeBoxesGo]
  | cons b0 rest ih =>
    intro raw hin
    have hb0 : flatIdx b0.position < raw.length :=
      hin b0 (List.mem_cons_self b0 rest)
    simp only [writeBoxesGo, BOARD_DIMENSIONS_x]
    have hfi : b0.position.y * 30 + b0.position.x = flatIdx b0.position := by
      simp [flatIdx]
    rw [hfi]
    by_cases ht : raw[flatIdx b0.position]? = some 't'
    · rw [if_pos ht,
        ih (replaceAt raw (flatIdx b0.position) 'h')
          (fun b hb => by
            rw [length_replaceAt raw (flatIdx b0.position) 'h' hb0]
            exact hin b (List.mem_cons_of_mem b0 hb)),
        length_replaceAt raw (flatIdx b0.position) 'h' hb0]
    · rw [if_neg ht,
        ih (replaceAt raw (flatIdx b0.position) 'b')
          (fun b hb => by
            rw [length_replaceAt raw (flatIdx b0.position) 'b' hb0]
            exact hin b (List.mem_cons_of_mem b0 hb)),
        length_replaceAt raw (flatIdx b0.position) 'b' hb0]

lemma getElem?_writeBoxesGo_untouched (bs : List Box) :
    ∀ (raw : List Char) (j : Nat),
      (∀ b ∈ bs, flatIdx b.position < raw.length) →
      (∀ b ∈ bs, flatIdx b.position ≠ j) →
      (writeBoxesGo raw bs)[j]? = raw[j]? := by
  induction bs with
  | nil => intro raw j _ _; simp [writeBoxesGo]
  | cons b0 rest ih =>
    intro raw j hin hne
    have hb0 : flatIdx b0.position < raw.length :=
      hin b0 (List.mem_cons_self b0 rest)
    have hb0j : flatIdx b0.position ≠ j :=
      hne b0 (List.mem_cons_self b0 rest)
    simp only [writeBoxesGo, BOARD_DIMENSIONS_x]
    have hfi : b0.position.y * 30 + b0.position.x = flatIdx b0.position := by
      simp [flatIdx]
    rw [hfi]
    by_cases ht : raw[flatIdx b0.position]? = some 't'
    · rw [if_pos ht,
        ih (replaceAt raw (flatIdx b0.position) 'h') j
          (fun b hb => by
            rw [length_replaceAt raw (flatIdx b0.position) 'h' hb0]
            exact hin b (List.mem_cons_of_mem b0 hb))
          (fun b hb => hne b (List.mem_cons_of_mem b0 hb))]
      exact getElem?_replaceAt_ne raw (flatIdx b0.position) 'h' j hb0
        (fun hj => hb0j hj.symm)
    · rw [if_neg ht,
        ih (replaceAt raw (flatIdx b0.position) 'b') j
          (fun b hb => by
            rw [length_replaceAt raw (flatIdx b0.position) 'b' hb0]
            exact hin b (List.mem_cons_of_mem b0 hb))
          (fun b hb => hne b (List.mem_cons_of_mem b0 hb))]
      exact getElem?_replaceAt_ne raw (flatIdx b0.position) 'b' j hb0
        (fun hj => hb0j hj.symm)

lemma getElem?_writeBoxesGo_written (bs : List Box) :
    ∀ (raw : List Char) (b : Box),
      (∀ b' ∈ bs, flatIdx b'.position < raw.length) →
      (bs.map (fun b' => flatIdx b'.position)).Nodup →
      b ∈ bs →
      (writeBoxesGo raw bs)[flatIdx b.position]? =
        some (if raw[flatIdx b.position]? = some 't' then 'h' else 'b') := by
  induction bs with
  | nil => intro raw b _ _ hb; simp at hb
  | cons b0 rest ih =>
    intro raw b hin hnd hb
    have hb0 : flatIdx b0.position < raw.length :=
      hin b0 (List.mem_cons_self b0 rest)
    simp only [List.map_cons, List.nodup_cons, List.mem_map] at hnd
    simp only [writeBoxesGo, BOARD_DIMENSIONS_x]
    have hfi : b0.position.y * 30 + b0.position.x = flatIdx b0.position := by
      simp [flatIdx]
    rw [hfi]
    rcases List.mem_cons.1 hb with hbeq | hbrest
    · subst hbeq
      by_cases ht : raw[flatIdx b.position]? = some 't'
      · rw [if_pos ht,
          getElem?_writeBoxesGo_untouched rest
            (replaceAt raw (flatIdx b.position) 'h') (flatIdx b.position)
            (fun b' hb' => by
              rw [length_replaceAt raw (flatIdx b.position) 'h' hb0]
              exact hin b' (List.mem_cons_of_mem b hb'))
            (fun b' hb' heq => hnd.1 ⟨b', hb', heq⟩),
          getElem?_replaceAt_self raw (flatIdx b.position) 'h' hb0,
          if_pos ht]
      · rw [if_neg ht,
          getElem?_writeBoxesGo_untouched rest
            (replaceAt raw (flatIdx b.position) 'b') (flatIdx b.position)
            (fun b' hb' => by
              rw [length_replaceAt raw (flatIdx b.position) 'b' hb0]
              exact hin b' (List.mem_cons_of_mem b hb'))
            (fun b' hb' heq => hnd.1 ⟨b', hb', heq⟩),
          getElem?_replaceAt_self raw (flatIdx b.position) 'b' hb0,
          if_neg ht]
    · have hbne : flatIdx b0.position ≠ flatIdx b.position := by
        intro heq
        exact hnd.1 ⟨b, hbrest, heq.symm⟩
      by_cases ht : raw[flatIdx b0.position]? = some 't'
      · rw [if_pos ht,
          ih (replaceAt raw (flatIdx b0.position) 'h') b
            (fun b' hb' => by
              rw [length_replaceAt raw (flatIdx b0.position) 'h' hb0]
              exact hin b' (List.mem_cons_of_mem b0 hb'))
            hnd.2 hbrest,
          getElem?_replaceAt_ne raw (flatIdx b0.position) 'h'
            (flatIdx b.position) hb0 (fun hj => hbne hj.symm)]
      · rw [if_neg ht,
          ih (replaceAt raw (flatIdx b0.position) 'b') b
            (fun b' hb' => by
              rw [length_replaceAt raw (flatIdx b0.position) 'b' hb0]
              exact hin b' (List.mem_cons_of_mem b0 hb'))
            hnd.2 hbrest,
          getElem?_replaceAt_ne raw (flatIdx b0.position) 'b'
            (flatIdx b.position) hb0 (fun hj => hbne hj.symm)]

lemma getD_row_length (board : List (List Char))
    (hbl : board.length = 20) (hrows : ∀ row ∈ board, row.length = 30)
    (r : Nat) (hr : r < 20) : (board.getD r []).length = 30 := by
  have hr' : r < board.length := by omega
  rw [List.getD_eq_getElem?_getD, List.getElem?_eq_getElem hr',
    Option.getD_some]
  exact hrows _ (List.getElem_mem hr')

lemma getElem?_row_cellAt (board : List (List Char)) (r c : Nat)
    (hc : c < (board.getD r []).length) :
    (board.getD r [])[c]? = some (cellAt board r c) := by
  have hc' : c < (board[r]?.getD []).length := by simpa using hc
  simp only [cellAt, List.getD_eq_getElem?_getD]
  rw [List.getElem?_eq_getElem hc']
  simp

lemma replicate_dims :
    List.replicate (BOARD_DIMENSIONS.x * BOARD_DIMENSIONS.y) 'e' =
      List.replicate 600 'e' := rfl

@[simp] lemma flatIdx_eq (p : Pos) :
    flatIdx p = p.y * 30 + p.x := by
  simp [flatIdx]

lemma terrainPhase_length (board : List (List Char))
    (hbl : board.length = 20) (hrows : ∀ row ∈ board, row.length = 30) :
    (writeBoardGo (List.replicate 600 'e') 0 board).length = 600 := by
  rw [length_writeBoardGo board (List.replicate 600 'e') 0 hrows
    (by simp only [List.length_replicate]; omega)]
  simp only [List.length_replicate]

lemma terrainPhase_getElem? (board : List (List Char))
    (hbl : board.length = 20) (hrows : ∀ row ∈ board, row.length = 30)
    (idx : Nat) (hidx : idx < 600) :
    (writeBoardGo (List.replicate 600 'e') 0 board)[idx]? =
      some (cellAt board (idx / 30) (idx % 30)) := by
  have hr : idx / 30 < 20 := by omega
  have hc : idx % 30 < 30 := by omega
  have hwrite := getElem?_writeBoardGo_written board
    (List.replicate 600 'e') 0 (idx / 30) (idx % 30) hrows
    (by simp only [List.length_replicate]; omega) (by omega) hc
  have harith : (0 + idx / 30) * 30 + idx % 30 = idx := by omega
  rw [harith] at hwrite
  rw [hwrite]
  exact getElem?_row_cellAt board (idx / 30) (idx % 30)
    (by rw [getD_row_length board hbl hrows (idx / 30) hr]; omega)

lemma pos_ext (p q : Pos) (hx : p.x = q.x) (hy : p.y = q.y) : p = q := by
  cases p
  cases q
  simp_all

lemma gridTargetAt00_length : gridTargetAt00.length = 20 := by
  simp [gridTargetAt00]

lemma gridTargetAt00_rows : ∀ row ∈ gridTargetAt00, row.length = 30 := by
  intro row hrow
  simp only [gridTargetAt00, allEmptyGrid, BOARD_DIMENSIONS_x,
    BOARD_DIMENSIONS_y] at hrow
  rcases List.mem_or_eq_of_mem_set hrow with hmem | heq
  · rw [List.eq_of_mem_replicate hmem]
    simp
  · rw [heq]
    simp

lemma cellAt_gridTargetAt00 : cellAt gridTargetAt00 0 0 = 't' := by
  rw [gridTargetAt00]
  exact cellAt_setCell_self allEmptyGrid 0 0 't' (by simp)
    (by rw [getD_length_allEmptyGrid 0 (by omega)]; omega)

/-- Two `height × width` boards that agree cellwise are equal. -/
lemma board_ext (A B : List (List Char)) (hA : A.length = 20)
    (hB : B.length = 20)
    (hArows : ∀ row ∈ A, row.length = 30)
    (hBrows : ∀ row ∈ B, row.length = 30)
    (hcell : ∀ r c, r < 20 → c < 30 → cellAt A r c = cellAt B r c) :
    A = B := by
  apply List.ext_getElem?
  intro r
  by_cases hr : r < 20
  · have hrA : r < A.length := by omega
    have hrB : r < B.length := by omega
    rw [List.getElem?_eq_getElem hrA, List.getElem?_eq_getElem hrB]
    have hAr : A[r].length = 30 := hArows _ (List.getElem_mem hrA)
    have hBr : B[r].length = 30 := hBrows _ (List.getElem_mem hrB)
    have hgdA : A.getD r [] = A[r] := by
      rw [List.getD_eq_getElem?_getD, List.getElem?_eq_getElem hrA,
        Option.getD_some]
    have hgdB : B.getD r [] = B[r] := by
      rw [List.getD_eq_getElem?_getD, List.getElem?_eq_getElem hrB,
        Option.getD_some]
    congr 1
    apply List.ext_getElem?
    intro c
    by_cases hc : c < 30
    · rw [List.getElem?_eq_getElem (by omega),
        List.getElem?_eq_getElem (by omega)]
      have hcall := hcell r c hr hc
      simp only [cellAt] at hcall
      rw [hgdA, hgdB] at hcall
      rw [List.getD_eq_getElem?_getD, List.getD_eq_getElem?_getD,
        List.getElem?_eq_getElem (by omega),
        List.getElem?_eq_getElem (by omega)] at hcall
      simpa using hcall
    · rw [List.getElem?_eq_none (by omega), List.getElem?_eq_none (by omega)]
  · rw [List.getElem?_eq_none (by omega), List.getElem?_eq_none (by omega)]

/-- One step of the box phase, with the flat position named. -/
lemma writeBoxesGo_cons (raw : List Char) (b : Box) (rest : List Box) :
    writeBoxesGo raw (b :: rest) =
      writeBoxesGo (if raw[flatIdx b.position]? = some 't'
        then replaceAt raw (flatIdx b.position) 'h'
        else replaceAt raw (flatIdx b.position) 'b') rest := rfl

/-- C5 counterexample: with two boxes at the same cell `(0,0)` whose
terrain is `'t'` (all positions in bounds), the encoded character at
that cell is `'b'`, not the `'h'` the claim promises for a box on
`'t'` terrain — the claim fails without a distinct-positions
hypothesis. -/
theorem claim_C5_counterexample :
    cellAt gridTargetAt00 0 0 = 't' ∧
      (convertToRawLevel ⟨gridTargetAt00⟩
          ⟨[⟨⟨0, 0⟩, true⟩, ⟨⟨0, 0⟩, true⟩]⟩ none)[0]? = some 'b' := by
  have hcell := cellAt_gridTargetAt00
  refine ⟨hcell, ?_⟩
  have hT := terrainPhase_getElem? gridTargetAt00 gridTargetAt00_length
    gridTargetAt00_rows 0 (by omega)
  norm_num at hT
  have hTlen := terrainPhase_length gridTargetAt00 gridTargetAt00_length
    gridTargetAt00_rows
  have hunfold : convertToRawLevel ⟨gridTargetAt00⟩
      ⟨[⟨⟨0, 0⟩, true⟩, ⟨⟨0, 0⟩, true⟩]⟩ none =
      writeBoxesGo (writeBoardGo (List.replicate 600 'e') 0 gridTargetAt00)
        [⟨⟨0, 0⟩, true⟩, ⟨⟨0, 0⟩, true⟩] := rfl
  rw [hunfold, writeBoxesGo_cons]
  have hf0 : flatIdx ((⟨⟨0, 0⟩, true⟩ : Box)).position = 0 := rfl
  rw [hf0, hT, hcell, if_pos rfl, writeBoxesGo_cons, hf0]
  rw [getElem?_replaceAt_self
    (writeBoardGo (List.replicate 600 'e') 0 gridTargetAt00) 0 'h'
    (by omega)]
  rw [if_neg (by decide)]
  show (replaceAt (replaceAt
    (writeBoardGo (List.replicate 600 'e') 0 gridTargetAt00) 0 'h')
    0 'b')[0]? = some 'b'
  exact getElem?_replaceAt_self _ 0 'b'
    (by rw [length_replaceAt _ _ _ (by omega)]; omega)

/-- Full pointwise description of the encoder under in-bounds and
distinct-position hypotheses. -/
lemma convertToRawLevel_spec (board : Board) (boxes : Boxes)
    (worker : Option Worker)
    (hbl : board.board.length = 20)
    (hrows : ∀ row ∈ board.board, row.length = 30)
    (hbx : ∀ b ∈ boxes.boxes, b.position.x < 30 ∧ b.position.y < 20)
    (hnd : (boxes.boxes.map (fun b => flatIdx b.position)).Nodup)
    (hw : ∀ w, worker = some w → w.position.x < 30 ∧ w.position.y < 20) :
    (convertToRawLevel board boxes worker).length = 600 ∧
      ∀ idx, idx < 600 →
        (convertToRawLevel board boxes worker)[idx]? =
          some (specEncodedChar board boxes worker idx) := by
  have hTlen := terrainPhase_length board.board hbl hrows
  have hT := terrainPhase_getElem? board.board hbl hrows
  have hbox_in : ∀ b ∈ boxes.boxes, flatIdx b.position <
      (writeBoardGo (List.replicate 600 'e') 0 board.board).length := by
    intro b hb
    have := hbx b hb
    rw [hTlen, flatIdx_eq]
    omega
  have hBlen : (writeBoxesGo
      (writeBoardGo (List.replicate 600 'e') 0 board.board)
      boxes.boxes).length = 600 := by
    rw [length_writeBoxesGo boxes.boxes _ hbox_in, hTlen]
  have hBchar : ∀ idx, idx < 600 →
      (writeBoxesGo (writeBoardGo (List.replicate 600 'e') 0 board.board)
        boxes.boxes)[idx]? =
      some (match boxes.boxes.find? (fun b => flatIdx b.position = idx) with
            | some _ =>
              if cellAt board.board (idx / 30) (idx % 30) = 't' then 'h'
              else 'b'
            | none => cellAt board.board (idx / 30) (idx % 30)) := by
    intro idx hidx
    cases hfind : boxes.boxes.find? (fun b => flatIdx b.position = idx) with
    | none =>
      have hne : ∀ b ∈ boxes.boxes, flatIdx b.position ≠ idx := by
        intro b hb
        have := List.find?_eq_none.1 hfind b hb
        simpa using this
      rw [getElem?_writeBoxesGo_untouched boxes.boxes _ idx hbox_in hne]
      exact hT idx hidx
    | some b =>
      have hbmem := List.mem_of_find?_eq_some hfind
      have hbeq : flatIdx b.position = idx := by
        have := List.find?_some hfind
        simpa using this
      have hwrite := getElem?_writeBoxesGo_written boxes.boxes _ b
        hbox_in hnd hbmem
      rw [hbeq] at hwrite
      rw [hwrite, hT idx hidx]
      simp only [Option.some.injEq]
  constructor
  · cases worker with
    | none =>
      have hcr : convertToRawLevel board boxes none =
          writeBoxesGo (writeBoardGo (List.replicate 600 'e') 0 board.board)
            boxes.boxes := rfl
      rw [hcr, hBlen]
    | some w =>
      have hwb := hw w rfl
      have hcr : convertToRawLevel board boxes (some w) =
          replaceAt (writeBoxesGo
            (writeBoardGo (List.replicate 600 'e') 0 board.board)
            boxes.boxes) (flatIdx w.position) 'p' := rfl
      rw [hcr, length_replaceAt _ _ _
        (by rw [hBlen, flatIdx_eq]; omega), hBlen]
  · intro idx hidx
    cases worker with
    | none =>
      have hcr : convertToRawLevel board boxes none =
          writeBoxesGo (writeBoardGo (List.replicate 600 'e') 0 board.board)
            boxes.boxes := rfl
      rw [hcr, hBchar idx hidx]
      rfl
    | some w =>
      have hwb := hw w rfl
      have hcr : convertToRawLevel board boxes (some w) =
          replaceAt (writeBoxesGo
            (writeBoardGo (List.replicate 600 'e') 0 board.board)
            boxes.boxes) (flatIdx w.position) 'p' := rfl
      rw [hcr]
      by_cases hidxw : idx = flatIdx w.position
      · subst hidxw
        rw [getElem?_replaceAt_self _ _ 'p'
          (by rw [hBlen, flatIdx_eq]; omega)]
        simp [specEncodedChar]
      · rw [getElem?_replaceAt_ne _ _ 'p' idx
          (by rw [hBlen, flatIdx_eq]; omega) hidxw]
        rw [hBchar idx hidx]
        simp only [specEncodedChar]
        rw [if_neg (show ¬ (flatIdx w.position = idx) from
          fun heq => hidxw heq.symm)]
        rfl

/-- C5 (amended: box positions pairwise distinct): the encoder
produces a string of length exactly `width*height` whose character at
every flat index is the worker's `'p'` at the worker's cell (when a
worker is supplied), else `'h'`/`'b'` at a box's cell according to
whether the terrain there is `'t'`, else the terrain symbol — the
spec-side description `specEncodedChar`. -/
theorem claim_C5 (board : Board) (boxes : Boxes) (worker : Option Worker)
    (hbl : board.board.length = 20)
    (hrows : ∀ row ∈ board.board, row.length = 30)
    (hbx : ∀ b ∈ boxes.boxes, b.position.x < 30 ∧ b.position.y < 20)
    (hnd : (boxes.boxes.map (fun b => flatIdx b.position)).Nodup)
    (hw : ∀ w, worker = some w → w.position.x < 30 ∧ w.position.y < 20) :
    (convertToRawLevel board boxes worker).length = 600 ∧
      ∀ idx, idx < 600 →
        (convertToRawLevel board boxes worker)[idx]? =
          some (specEncodedChar board boxes worker idx) :=
  convertToRawLevel_spec board boxes worker hbl hrows hbx hnd hw

theorem claim_C5_witness :
    (convertToRawLevel ⟨allEmptyGrid⟩ ⟨[⟨⟨1, 0⟩, false⟩]⟩
        (some ⟨⟨0, 0⟩⟩)).length = 600 ∧
      ∀ idx, idx < 600 →
        (convertToRawLevel ⟨allEmptyGrid⟩ ⟨[⟨⟨1, 0⟩, false⟩]⟩
          (some ⟨⟨0, 0⟩⟩))[idx]? =
        some (specEncodedChar ⟨allEmptyGrid⟩ ⟨[⟨⟨1, 0⟩, false⟩]⟩
          (some ⟨⟨0, 0⟩⟩) idx) :=
  claim_C5 ⟨allEmptyGrid⟩ ⟨[⟨⟨1, 0⟩, false⟩]⟩ (some ⟨⟨0, 0⟩⟩)
    (by simp)
    (by intro row hrow
        simp only [allEmptyGrid, BOARD_DIMENSIONS_x, BOARD_DIMENSIONS_y,
          List.mem_replicate] at hrow
        rw [hrow.2]
        simp only [List.length_replicate])
    (by intro b hb
        simp only [List.mem_singleton] at hb
        subst hb
        exact ⟨by decide, by decide⟩)
    (by simp)
    (by intro w hw
        simp only [Option.some_inj] at hw
        subst hw
        exact ⟨by decide, by decide⟩)

/-! ## Round-trip -/

/-- C1 (amended: the terrain under the worker is `'e'`, and each box's
terrain is `'t'` when its `onTarget` flag is set and `'e'` otherwise):
decoding the encoding of a well-formed structured level reproduces the
board terrain, the worker position, and the set of boxes. -/
theorem claim_C1 (board : Board) (boxes : Boxes) (worker : Worker)
    (hbl : board.board.length = 20)
    (hrows : ∀ row ∈ board.board, row.length = 30)
    (hterrain : ∀ r c, r < 20 → c < 30 →
      cellAt board.board r c = 'e' ∨ cellAt board.board r c = 'w' ∨
        cellAt board.board r c = 't')
    (hwx : worker.position.x < 30) (hwy : worker.position.y < 20)
    (hbx : ∀ b ∈ boxes.boxes, b.position.x < 30 ∧ b.position.y < 20)
    (hnd : (boxes.boxes.map (fun b => flatIdx b.position)).Nodup)
    (hdisj : ∀ b ∈ boxes.boxes, b.position ≠ worker.position)
    (hwe : cellAt board.board worker.position.y worker.position.x = 'e')
    (hflag : ∀ b ∈ boxes.boxes,
      cellAt board.board b.position.y b.position.x =
        (if b.onTarget then 't' else 'e')) :
    ∃ lv, convertToLevel (convertToRawLevel board boxes (some worker)) =
        some lv ∧
      lv.board = board.board ∧
      lv.worker.position = worker.position ∧
      List.Perm lv.boxes.boxes boxes.boxes := by
  have hwbnd : ∀ w, (some worker : Option Worker) = some w →
      w.position.x < 30 ∧ w.position.y < 20 := by
    intro w hww
    have h := Option.some_inj.1 hww
    subst h
    exact ⟨hwx, hwy⟩
  have hspec := convertToRawLevel_spec board boxes (some worker) hbl hrows
    hbx hnd hwbnd
  have hlen := hspec.1
  have hchar := hspec.2
  have hwidx : flatIdx worker.position < 600 := by
    rw [flatIdx_eq]
    omega
  have hspec_p : specEncodedChar board boxes (some worker)
      (flatIdx worker.position) = 'p' := by
    simp [specEncodedChar]
  have hspec_ne : ∀ idx, idx ≠ flatIdx worker.position →
      specEncodedChar board boxes (some worker) idx =
      (match boxes.boxes.find? (fun b => flatIdx b.position = idx) with
       | some _ =>
         if cellAt board.board (idx / 30) (idx % 30) = 't' then 'h' else 'b'
       | none => cellAt board.board (idx / 30) (idx % 30)) := by
    intro idx hne
    simp only [specEncodedChar]
    rw [if_neg (show ¬ (flatIdx worker.position = idx) from
      fun heq => hne heq.symm)]
    rfl
  have hboard : applyChars allEmptyGrid 0
      (convertToRawLevel board boxes (some worker)) = board.board := by
    apply board_ext _ _ (by simp) hbl (rows_length_applyChars _ 0) hrows
    intro r c hr hc
    have hidx6 : r * 30 + c < 600 := by omega
    rw [decoded_board_cellAt _ (by omega) r c hr hc, if_pos (by omega)]
    have hgd : (convertToRawLevel board boxes (some worker)).getD
        (r * 30 + c) ' ' =
        specEncodedChar board boxes (some worker) (r * 30 + c) := by
      rw [List.getD_eq_getElem?_getD, hchar _ hidx6, Option.getD_some]
    rw [hgd]
    by_cases hwc : r * 30 + c = flatIdx worker.position
    · have hx : worker.position.x = c := by
        rw [flatIdx_eq] at hwc
        omega
      have hy : worker.position.y = r := by
        rw [flatIdx_eq] at hwc
        omega
      rw [hwc, hspec_p, show decodeCellChar 'p' = 'e' from rfl, ← hx, ← hy]
      exact hwe.symm
    · rw [hspec_ne _ hwc]
      have hdr : (r * 30 + c) / 30 = r := by omega
      have hdc : (r * 30 + c) % 30 = c := by omega
      cases hfind : boxes.boxes.find?
          (fun b => flatIdx b.position = (r * 30 + c)) with
      | none =>
        rw [hdr, hdc]
        rcases hterrain r c hr hc with h | h | h <;> rw [h] <;> decide
      | some bb =>
        have hmem' := List.mem_of_find?_eq_some hfind
        have hflat' : flatIdx bb.position = r * 30 + c := by
          simpa using List.find?_some hfind
        have hbnd' := hbx bb hmem'
        have hbxc : bb.position.x = c := by
          rw [flatIdx_eq] at hflat'
          omega
        have hbyr : bb.position.y = r := by
          rw [flatIdx_eq] at hflat'
          omega
        have hflagb := hflag bb hmem'
        rw [hbxc, hbyr] at hflagb
        rw [hdr, hdc, hflagb]
        cases hbo : bb.onTarget <;> simp [decodeCellChar]
  have hlastP : lastP ⟨⟨0, 0⟩⟩ 0
      (convertToRawLevel board boxes (some worker)) =
      ⟨⟨worker.position.x, worker.position.y⟩⟩ := by
    have hp : (convertToRawLevel board boxes
        (some worker))[flatIdx worker.position]? = some 'p' := by
      rw [hchar _ hwidx, hspec_p]
    have hlater : ∀ i, flatIdx worker.position < i →
        (convertToRawLevel board boxes (some worker))[i]? ≠ some 'p' := by
      intro i hi hcon
      by_cases hi6 : i < 600
      · rw [hchar i hi6] at hcon
        have hne : i ≠ flatIdx worker.position := by omega
        rw [hspec_ne i hne] at hcon
        cases hfind : boxes.boxes.find?
            (fun b => flatIdx b.position = i) with
        | none =>
          rw [hfind] at hcon
          rcases hterrain (i / 30) (i % 30) (by omega) (by omega)
            with h | h | h <;> rw [h] at hcon <;> simp at hcon
        | some bb =>
          rw [hfind] at hcon
          by_cases hct : cellAt board.board (i / 30) (i % 30) = 't'
          · rw [if_pos hct] at hcon
            simp at hcon
          · rw [if_neg hct] at hcon
            simp at hcon
      · rw [List.getElem?_eq_none (by omega)] at hcon
        exact Option.noConfusion hcon
    rw [lastP_last (convertToRawLevel board boxes (some worker)) ⟨⟨0, 0⟩⟩ 0
      (flatIdx worker.position) hp hlater]
    have h1 : (0 + flatIdx worker.position) % 30 = worker.position.x := by
      rw [flatIdx_eq]
      omega
    have h2 : (0 + flatIdx worker.position) / 30 = worker.position.y := by
      rw [flatIdx_eq]
      omega
    rw [h1, h2]
  have hperm : List.Perm
      (boxesOf 0 (convertToRawLevel board boxes (some worker)))
      boxes.boxes := by
    rw [List.perm_ext_iff_of_nodup (nodup_boxesOf _ 0)
      (List.Nodup.of_map _ hnd)]
    intro b
    constructor
    · intro hmem
      obtain ⟨j, hj⟩ := (mem_boxesOf _ 0 b).1 hmem
      rcases hj with ⟨hcj, hbj⟩ | ⟨hcj, hbj⟩
      · have hj6 : j < 600 := by
          have hjl : j < (convertToRawLevel board boxes
              (some worker)).length := by
            by_contra hge
            rw [List.getElem?_eq_none (by omega)] at hcj
            exact Option.noConfusion hcj
          omega
        have hjw : j ≠ flatIdx worker.position := by
          intro heq
          rw [hchar j hj6, heq, hspec_p] at hcj
          simp at hcj
        rw [hchar j hj6, hspec_ne j hjw] at hcj
        cases hfind : boxes.boxes.find?
            (fun b' => flatIdx b'.position = j) with
        | none =>
          rw [hfind] at hcj
          rcases hterrain (j / 30) (j % 30) (by omega) (by omega)
            with h | h | h <;> rw [h] at hcj <;> simp at hcj
        | some bb =>
          rw [hfind] at hcj
          have hmem' := List.mem_of_find?_eq_some hfind
          have hflat' : flatIdx bb.position = j := by
            simpa using List.find?_some hfind
          have hbnd' := hbx bb hmem'
          have hxx : bb.position.x = j % 30 := by
            rw [flatIdx_eq] at hflat'
            omega
          have hyy : bb.position.y = j / 30 := by
            rw [flatIdx_eq] at hflat'
            omega
          have hflagb := hflag bb hmem'
          rw [hxx, hyy] at hflagb
          have hbo : bb.onTarget = false := by
            cases hbo : bb.onTarget
            · rfl
            · rw [hbo] at hflagb
              simp at hflagb
              rw [hflagb] at hcj
              simp at hcj
          have hbb : b = bb := by
            rw [hbj]
            have hx0 : (0 + j) % 30 = bb.position.x := by omega
            have hy0 : (0 + j) / 30 = bb.position.y := by omega
            rw [hx0, hy0, ← hbo]
          rw [hbb]
          exact hmem'
      · have hj6 : j < 600 := by
          have hjl : j < (convertToRawLevel board boxes
              (some worker)).length := by
            by_contra hge
            rw [List.getElem?_eq_none (by omega)] at hcj
            exact Option.noConfusion hcj
          omega
        have hjw : j ≠ flatIdx worker.position := by
          intro heq
          rw [hchar j hj6, heq, hspec_p] at hcj
          simp at hcj
        rw [hchar j hj6, hspec_ne j hjw] at hcj
        cases hfind : boxes.boxes.find?
            (fun b' => flatIdx b'.position = j) with
        | none =>
          rw [hfind] at hcj
          rcases hterrain (j / 30) (j % 30) (by omega) (by omega)
            with h | h | h <;> rw [h] at hcj <;> simp at hcj
        | some bb =>
          rw [hfind] at hcj
          have hmem' := List.mem_of_find?_eq_some hfind
          have hflat' : flatIdx bb.position = j := by
            simpa using List.find?_some hfind
          have hbnd' := hbx bb hmem'
          have hxx : bb.position.x = j % 30 := by
            rw [flatIdx_eq] at hflat'
            omega
          have hyy : bb.position.y = j / 30 := by
            rw [flatIdx_eq] at hflat'
            omega
          have hflagb := hflag bb hmem'
          rw [hxx, hyy] at hflagb
          have hbo : bb.onTarget = true := by
            cases hbo : bb.onTarget
            · rw [hbo] at hflagb
              simp at hflagb
              rw [hflagb, if_neg (by decide)] at hcj
              simp at hcj
            · rfl
          have hbb : b = bb := by
            rw [hbj]
            have hx0 : (0 + j) % 30 = bb.position.x := by omega
            have hy0 : (0 + j) / 30 = bb.position.y := by omega
            rw [hx0, hy0, ← hbo]
          rw [hbb]
          exact hmem'
    · intro hmem
      have hbnd := hbx b hmem
      have hflagb := hflag b hmem
      have hj6 : flatIdx b.position < 600 := by
        rw [flatIdx_eq]
        omega
      have hjw : flatIdx b.position ≠ flatIdx worker.position := by
        intro heq
        apply hdisj b hmem
        apply pos_ext
        · rw [flatIdx_eq, flatIdx_eq] at heq
          omega
        · rw [flatIdx_eq, flatIdx_eq] at heq
          omega
      have hfind : boxes.boxes.find?
          (fun b' => flatIdx b'.position = flatIdx b.position) = some b := by
        cases hf : boxes.boxes.find?
            (fun b' => flatIdx b'.position = flatIdx b.position) with
        | none =>
          have := List.find?_eq_none.1 hf b hmem
          simp at this
        | some bb =>
          have hmem' := List.mem_of_find?_eq_some hf
          have heq' : flatIdx bb.position = flatIdx b.position := by
            simpa using List.find?_some hf
          rw [List.inj_on_of_nodup_map hnd hmem' hmem heq']
      have hcharb : (convertToRawLevel board boxes
          (some worker))[flatIdx b.position]? =
          some (if b.onTarget then 'h' else 'b') := by
        rw [hchar _ hj6, hspec_ne _ hjw, hfind]
        have h1 : flatIdx b.position / 30 = b.position.y := by
          rw [flatIdx_eq]
          omega
        have h2 : flatIdx b.position % 30 = b.position.x := by
          rw [flatIdx_eq]
          omega
        rw [h1, h2, hflagb]
        cases hbo : b.onTarget <;> simp
      apply (mem_boxesOf _ 0 b).2
      refine ⟨flatIdx b.position, ?_⟩
      cases hbo : b.onTarget
      · left
        constructor
        · rw [hcharb, hbo]
          decide
        · have h1 : (0 + flatIdx b.position) % 30 = b.position.x := by
            rw [flatIdx_eq]
            omega
          have h2 : (0 + flatIdx b.position) / 30 = b.position.y := by
            rw [flatIdx_eq]
            omega
          rw [h1, h2, ← hbo]
      · right
        constructor
        · rw [hcharb, hbo]
          decide
        · have h1 : (0 + flatIdx b.position) % 30 = b.position.x := by
            rw [flatIdx_eq]
            omega
          have h2 : (0 + flatIdx b.position) / 30 = b.position.y := by
            rw [flatIdx_eq]
            omega
          rw [h1, h2, ← hbo]
  refine ⟨_, convertToLevel_eq _ (by omega), hboard, ?_, hperm⟩
  rw [hlastP]

/-- C1 counterexample: a level whose terrain is drawn from
`{e,w,t}` with in-bounds, disjoint worker/box positions (no boxes at
all), but whose worker stands on a `'t'` target: the round trip loses
the target — decode writes `'e'` under the worker — so the decoded
board differs from the original. -/
theorem claim_C1_counterexample :
    cellAt gridTargetAt00 0 0 = 't' ∧
      (convertToLevel (convertToRawLevel ⟨gridTargetAt00⟩ ⟨[]⟩
        (some ⟨⟨0, 0⟩⟩))).map Level.board ≠ some gridTargetAt00 := by
  refine ⟨cellAt_gridTargetAt00, ?_⟩
  have hwbnd : ∀ w, (some (⟨⟨0, 0⟩⟩ : Worker) : Option Worker) = some w →
      w.position.x < 30 ∧ w.position.y < 20 := by
    intro w hww
    have h := Option.some_inj.1 hww
    subst h
    exact ⟨by decide, by decide⟩
  have hspec := convertToRawLevel_spec ⟨gridTargetAt00⟩ ⟨[]⟩
    (some ⟨⟨0, 0⟩⟩) gridTargetAt00_length gridTargetAt00_rows
    (by simp) (by simp) hwbnd
  have hlen := hspec.1
  intro hcon
  rw [convertToLevel_eq _ (by omega), Option.map_some'] at hcon
  injection hcon with hboards
  dsimp only at hboards
  have h1 : cellAt (applyChars allEmptyGrid 0 (convertToRawLevel
      ⟨gridTargetAt00⟩ ⟨[]⟩ (some ⟨⟨0, 0⟩⟩))) 0 0 =
      cellAt gridTargetAt00 0 0 := by
    rw [hboards]
  rw [decoded_board_cellAt _ (by omega) 0 0 (by omega) (by omega),
    if_pos (by omega)] at h1
  norm_num at h1
  rw [hspec.2 0 (by omega), Option.getD_some, cellAt_gridTargetAt00] at h1
  simp [specEncodedChar, decodeCellChar] at h1

theorem claim_C1_witness :
    ∃ lv, convertToLevel (convertToRawLevel ⟨allEmptyGrid⟩
        ⟨[⟨⟨1, 0⟩, false⟩]⟩ (some ⟨⟨0, 0⟩⟩)) = some lv ∧
      lv.board = (⟨allEmptyGrid⟩ : Board).board ∧
      lv.worker.position = (⟨⟨0, 0⟩⟩ : Worker).position ∧
      List.Perm lv.boxes.boxes (⟨[⟨⟨1, 0⟩, false⟩]⟩ : Boxes).boxes :=
  claim_C1 ⟨allEmptyGrid⟩ ⟨[⟨⟨1, 0⟩, false⟩]⟩ ⟨⟨0, 0⟩⟩
    (by simp)
    (by intro row hrow
        simp only [allEmptyGrid, BOARD_DIMENSIONS_x, BOARD_DIMENSIONS_y,
          List.mem_replicate] at hrow
        rw [hrow.2]
        simp only [List.length_replicate])
    (by intro r c hr hc
        left
        exact cellAt_allEmptyGrid r c hr hc)
    (by decide) (by decide)
    (by intro b hb
        simp only [List.mem_singleton] at hb
        subst hb
        exact ⟨by decide, by decide⟩)
    (by simp)
    (by intro b hb
        simp only [List.mem_singleton] at hb
        subst hb
        decide)
    (cellAt_allEmptyGrid 0 0 (by omega) (by omega))
    (by intro b hb
        simp only [List.mem_singleton] at hb
        subst hb
        simpa using cellAt_allEmptyGrid 0 1 (by omega) (by omega))

/-! ## Storage model lemmas -/

lemma startsWithL_append (pre rest : List Char) :
    startsWithL pre (pre ++ rest) = true := by
  induction pre with
  | nil => simp [startsWithL]
  | cons c cs ih => simp [startsWithL, ih]

lemma startsWithL_drop (pat s : List Char)
    (h : startsWithL pat s = true) : s = pat ++ s.drop pat.length := by
  induction pat generalizing s with
  | nil => simp
  | cons c cs ih =>
    cases s with
    | nil => simp [startsWithL] at h
    | cons d ds =>
      simp only [startsWithL, Bool.and_eq_true, decide_eq_true_eq] at h
      simp only [List.length_cons, List.drop_succ_cons, List.cons_append]
      rw [h.1]
      exact congrArg (d :: ·) (ih ds h.2)

lemma replaceFirst_of_startsWith (pat s : List Char)
    (h : startsWithL pat s = true) :
    replaceFirst pat [] s = s.drop pat.length := by
  cases s with
  | nil => simp [replaceFirst, h]
  | cons c cs => simp [replaceFirst, h]

lemma replaceFirst_append (pre name : List Char) :
    replaceFirst pre [] (pre ++ name) = name := by
  rw [replaceFirst_of_startsWith pre (pre ++ name) (startsWithL_append pre name)]
  exact List.drop_left pre name

lemma key_determined (pre name k : List Char)
    (h1 : startsWithL pre k = true)
    (h2 : replaceFirst pre [] k = name) : k = pre ++ name := by
  rw [replaceFirst_of_startsWith pre k h1] at h2
  rw [← h2]
  exact startsWithL_drop pre k h1

lemma storeKeys_setItem (key value : List Char) (s : Store) :
    storeKeys (setItem key value s) =
      if key ∈ storeKeys s then storeKeys s else storeKeys s ++ [key] := by
  induction s with
  | nil => simp [setItem, storeKeys]
  | cons kv rest ih =>
    by_cases hk : kv.1 = key
    · simp [setItem, storeKeys, hk]
    · simp only [setItem]
      rw [if_neg hk]
      simp only [storeKeys, List.map_cons] at ih ⊢
      rw [ih]
      by_cases hmem : key ∈ List.map Prod.fst rest
      · rw [if_pos hmem, if_pos (by simp [hmem])]
      · rw [if_neg hmem,
          if_neg (by simp [hmem]; exact fun heq => hk heq.symm)]
        simp

lemma mem_storeKeys_setItem (key value : List Char) (s : Store) :
    key ∈ storeKeys (setItem key value s) := by
  rw [storeKeys_setItem]
  by_cases hmem : key ∈ storeKeys s
  · rwa [if_pos hmem]
  · rw [if_neg hmem]
    simp

lemma mem_storeKeys_setItem_of_mem (k key value : List Char) (s : Store)
    (h : k ∈ storeKeys s) : k ∈ storeKeys (setItem key value s) := by
  rw [storeKeys_setItem]
  by_cases hmem : key ∈ storeKeys s
  · rwa [if_pos hmem]
  · rw [if_neg hmem]
    simp [h]

lemma nodup_storeKeys_setItem (key value : List Char) (s : Store)
    (h : (storeKeys s).Nodup) : (storeKeys (setItem key value s)).Nodup := by
  rw [storeKeys_setItem]
  by_cases hmem : key ∈ storeKeys s
  · rwa [if_pos hmem]
  · rw [if_neg hmem]
    simp [List.nodup_append, h, hmem]

lemma getItem_setItem_self (key value : List Char) (s : Store) :
    getItem key (setItem key value s) = some value := by
  induction s with
  | nil => simp [setItem, getItem]
  | cons kv rest ih =>
    by_cases hk : kv.1 = key
    · simp [setItem, getItem, hk]
    · simp only [setItem, getItem]
      rw [if_neg hk]
      simp only [getItem] at ih
      simpa [List.find?, hk] using ih

lemma getItem_setItem_ne (k key value : List Char) (s : Store)
    (h : k ≠ key) : getItem k (setItem key value s) = getItem k s := by
  induction s with
  | nil =>
    simp only [setItem, getItem]
    rw [List.find?_cons_of_neg _ (by simp; exact fun heq => h heq.symm)]
  | cons kv rest ih =>
    by_cases hk : kv.1 = key
    · simp only [setItem]
      rw [if_pos hk]
      simp only [getItem]
      rw [List.find?_cons_of_neg _ (by simp; exact fun heq => h heq.symm),
        List.find?_cons_of_neg _
          (by simp; rw [hk]; exact fun heq => h heq.symm)]
    · simp only [setItem]
      rw [if_neg hk]
      simp only [getItem] at ih ⊢
      by_cases hkv : kv.1 = k
      · rw [List.find?_cons_of_pos _ (by simp [hkv]),
          List.find?_cons_of_pos _ (by simp [hkv])]
      · rw [List.find?_cons_of_neg _ (by simp [hkv]),
          List.find?_cons_of_neg _ (by simp [hkv])]
        exact ih

lemma filter_eq_singleton_of_nodup (l : List (List Char)) (a : List Char)
    (hnd : l.Nodup) (ha : a ∈ l) : l.filter (fun x => x = a) = [a] := by
  induction l with
  | nil => simp at ha
  | cons b rest ih =>
    simp only [List.nodup_cons] at hnd
    rcases List.mem_cons.1 ha with heq | hmem
    · subst heq
      rw [List.filter_cons_of_pos (by simp)]
      rw [List.filter_eq_nil_iff.2 (fun x hx => by
        simp
        exact fun heq2 => hnd.1 (heq2 ▸ hx))]
    · rw [List.filter_cons_of_neg (by
        simp
        exact fun heq2 => hnd.1 (by rw [heq2]; exact hmem))]
      exact ih hnd.2 hmem

/-- The namespace scan shared by `readLevels` and `readGames`: with
unique keys, a present key `pre ++ name` contributes exactly one entry
named `name`, carrying its stored value. -/
lemma readStore_filter_singleton (pre : List Char) (s : Store)
    (name value : List Char)
    (hnd : (storeKeys s).Nodup)
    (hmem : (pre ++ name) ∈ storeKeys s)
    (hget : getItem (pre ++ name) s = some value) :
    (((storeKeys s).filter (fun k => startsWithL pre k)).map
      (fun k => (replaceFirst pre [] k, getItem k s))).filter
      (fun e => e.1 = name) = [(name, some value)] := by
  rw [List.filter_map, List.filter_filter]
  have hcongr : ((storeKeys s).filter
      (fun k => (decide (replaceFirst pre [] k = name)) &&
        startsWithL pre k)) =
      (storeKeys s).filter (fun k => k = pre ++ name) := by
    apply List.filter_congr
    intro k _
    by_cases hkk : k = pre ++ name
    · subst hkk
      simp [replaceFirst_append, startsWithL_append]
    · cases h1 : startsWithL pre k
      · simp [h1, hkk]
      · by_cases h2 : replaceFirst pre [] k = name
        · exact absurd (key_determined pre name k h1 h2) hkk
        · simp [h1, h2, hkk]
  rw [show ((fun e => decide (e.1 = name)) ∘
      (fun k => (replaceFirst pre [] k, getItem k s))) =
      (fun k => decide (replaceFirst pre [] k = name)) from rfl] at *
  rw [hcongr, filter_eq_singleton_of_nodup _ _ hnd hmem]
  simp only [List.map_cons, List.map_nil, replaceFirst_append, hget]

/-- C6: after two `saveLevel` calls under the same name, `readLevels`
has exactly one entry with that name, and its data is the second
encoded level — the second write silently overwrites the first. -/
theorem claim_C6 (s : Store) (hnd : (storeKeys s).Nodup)
    (name : List Char) (b1 : Board) (x1 : Boxes) (w1 : Option Worker)
    (b2 : Board) (x2 : Boxes) (w2 : Option Worker) :
    (readLevels (saveLevel name b2 x2 w2 (saveLevel name b1 x1 w1 s))).filter
      (fun e => e.1 = name) =
      [(name, some (convertToRawLevel b2 x2 w2))] := by
  simp only [readLevels, saveLevel]
  apply readStore_filter_singleton
  · exact nodup_storeKeys_setItem _ _ _ (nodup_storeKeys_setItem _ _ _ hnd)
  · exact mem_storeKeys_setItem _ _ _
  · exact getItem_setItem_self _ _ _

theorem claim_C6_witness :
    (readLevels (saveLevel ['n'] ⟨[]⟩ ⟨[]⟩ none
        (saveLevel ['n'] ⟨[['w']]⟩ ⟨[]⟩ none []))).filter
      (fun e => e.1 = ['n']) =
      [(['n'], some (convertToRawLevel ⟨[]⟩ ⟨[]⟩ none))] :=
  claim_C6 [] (by simp [storeKeys]) ['n'] ⟨[['w']]⟩ ⟨[]⟩ none ⟨[]⟩ ⟨[]⟩ none

/-- C7: a custom level and a sequential-mode save stored under the same
name `X` live under the distinct key texts `level/` and `save/`:
after both writes, `readLevels` has exactly one entry named `X` holding
the encoded level and `readGames` exactly one entry named `X` holding
the serialized save record — neither write clobbers the other and
neither listing picks up the other namespace's key. -/
theorem claim_C7 (s : Store) (hnd : (storeKeys s).Nodup) (X : List Char)
    (b : Board) (x : Boxes) (w : Option Worker) (currentLevel : Nat)
    (worker : Worker) (boxes : Boxes)
    (movesMade movesUndone score : Nat) :
    (readLevels (saveGame X currentLevel worker boxes movesMade movesUndone
        score (saveLevel X b x w s))).filter (fun e => e.1 = X) =
      [(X, some (convertToRawLevel b x w))] ∧
    (readGames (saveGame X currentLevel worker boxes movesMade movesUndone
        score (saveLevel X b x w s))).filter (fun e => e.1 = X) =
      [(X, some (stringifyGame currentLevel worker boxes movesMade
        movesUndone score))] := by
  have hkeyne : (customLevelKey ++ X) ≠ (savedGameKey ++ X) := by
    intro h
    simp [customLevelKey, savedGameKey] at h
  constructor
  · simp only [readLevels, saveGame, saveLevel]
    apply readStore_filter_singleton
    · exact nodup_storeKeys_setItem _ _ _ (nodup_storeKeys_setItem _ _ _ hnd)
    · exact mem_storeKeys_setItem_of_mem _ _ _ _ (mem_storeKeys_setItem _ _ _)
    · rw [getItem_setItem_ne _ _ _ _ hkeyne]
      exact getItem_setItem_self _ _ _
  · simp only [readGames, saveGame, saveLevel]
    apply readStore_filter_singleton
    · exact nodup_storeKeys_setItem _ _ _ (nodup_storeKeys_setItem _ _ _ hnd)
    · exact mem_storeKeys_setItem _ _ _
    · exact getItem_setItem_self _ _ _

theorem claim_C7_witness :
    (readLevels (saveGame ['X'] 3 ⟨⟨0, 0⟩⟩ ⟨[]⟩ 5 1 70
        (saveLevel ['X'] ⟨[]⟩ ⟨[]⟩ none []))).filter
      (fun e => e.1 = ['X']) =
      [(['X'], some (convertToRawLevel ⟨[]⟩ ⟨[]⟩ none))] ∧
    (readGames (saveGame ['X'] 3 ⟨⟨0, 0⟩⟩ ⟨[]⟩ 5 1 70
        (saveLevel ['X'] ⟨[]⟩ ⟨[]⟩ none []))).filter
      (fun e => e.1 = ['X']) =
      [(['X'], some (stringifyGame 3 ⟨⟨0, 0⟩⟩ ⟨[]⟩ 5 1 70))] :=
  claim_C7 [] (by simp [storeKeys]) ['X'] ⟨[]⟩ ⟨[]⟩ none 3 ⟨⟨0, 0⟩⟩ ⟨[]⟩ 5 1 70

/-! ## Catalog selection claims -/

/-- C3 counterexample: on a one-entry pool, `getLevelByLevelNumber (-1)`
fails (the JS expression `levelsMode.length > -1` is true, so
`levelsMode[-1]` is `undefined` and reading `.name` throws) instead of
clamping, while `getLevelByLevelNumber 0` — the last entry — succeeds;
`-1` is an integer outside the pool's bounds, so the claim's
"does not fail and returns the last entry" is false. -/
theorem claim_C3_counterexample :
    getLevelByLevelNumber [⟨['l'], ['w']⟩] (-1) = none ∧
      getLevelByLevelNumber [⟨['l'], ['w']⟩] 0 ≠ none := by
  constructor
  · rfl
  · simp only [getLevelByLevelNumber]
    rw [if_pos (by decide), if_pos (by decide)]
    simp

/-- C3 (amended to nonnegative overflow only): for every `n` at least
the pool's length, `getLevelByLevelNumber` returns the same result as
at index `length - 1` — the clamp-to-last policy; negative `n` is not
covered (it throws). -/
theorem claim_C3 (pool : List NamedData) (hne : pool ≠ []) (n : Int)
    (hn : (pool.length : Int) ≤ n) :
    getLevelByLevelNumber pool n =
      getLevelByLevelNumber pool ((pool.length : Int) - 1) := by
  have hpos : 0 < pool.length := List.length_pos.2 hne
  simp only [getLevelByLevelNumber]
  rw [if_neg (show ¬ ((pool.length : Int) > n) by omega)]
  rw [if_pos (show (pool.length : Int) > (pool.length : Int) - 1 by omega)]
  rw [if_pos (show (0 : Int) ≤ (pool.length : Int) - 1 by omega)]
  rw [show ((pool.length : Int) - 1).toNat = pool.length - 1 by omega]

theorem claim_C3_witness :
    ([⟨['l'], ['w']⟩] : List NamedData) ≠ [] ∧
      getLevelByLevelNumber [⟨['l'], ['w']⟩] 5 =
        getLevelByLevelNumber [⟨['l'], ['w']⟩]
          ((([⟨['l'], ['w']⟩] : List NamedData).length : Int) - 1) :=
  ⟨by decide, claim_C3 [⟨['l'], ['w']⟩] (by decide) 5 (by decide)⟩

/-- C8: `getCustomLevel` fails (the lookup yields `undefined` and the
`.name` access throws) exactly when the requested name is absent from
`getCustomLevelsNames`; when present, it returns the first matching
entry's name together with its decoded level. -/
theorem claim_C8 (pool : List NamedData) (name : List Char) :
    (name ∉ getCustomLevelsNames pool → getCustomLevel pool name = none) ∧
    (name ∈ getCustomLevelsNames pool →
      ∃ e, e ∈ pool ∧ e.name = name ∧
        getCustomLevel pool name = some (e.name, convertToLevel e.data)) := by
  constructor
  · intro habs
    simp only [getCustomLevel]
    rw [List.find?_eq_none.2 (fun l hl => by
      simp
      exact fun heq => habs (List.mem_map.2 ⟨l, hl, heq⟩))]
    rfl
  · intro hmem
    cases hfind : pool.find? (fun l => l.name = name) with
    | none =>
      exfalso
      obtain ⟨e, he, heq⟩ := List.mem_map.1 hmem
      have := List.find?_eq_none.1 hfind e he
      simp [heq] at this
    | some e =>
      refine ⟨e, List.mem_of_find?_eq_some hfind,
        by simpa using List.find?_some hfind, ?_⟩
      simp only [getCustomLevel, hfind, Option.map_some']

theorem claim_C8_witness :
    getCustomLevel [⟨['a'], ['w']⟩] ['m'] = none ∧
      ∃ e, e ∈ [(⟨['a'], ['w']⟩ : NamedData)] ∧ e.name = ['a'] ∧
        getCustomLevel [⟨['a'], ['w']⟩] ['a'] =
          some (e.name, convertToLevel e.data) :=
  ⟨(claim_C8 [⟨['a'], ['w']⟩] ['m']).1 (by decide),
    (claim_C8 [⟨['a'], ['w']⟩] ['a']).2 (by decide)⟩

end Sokoban
